import Mathlib

/-
  Verification of the diffusion-inpainting core (sharpDiffusion,
  hierarchicalInpaint's final noise composite, performInpainting) of the
  texteraser repository.

  RGBA buffers (JS Uint8ClampedArray) are modelled as functions from the flat
  byte index to a natural-number byte value; the mask convention and all index
  arithmetic follow the source: a pixel p (0-based, row-major) occupies bytes
  4*p .. 4*p+3 and is a hole iff the mask's alpha byte at 4*p+3 is < 128.
  JS floats in the texturizer are modelled as exact rationals.
-/

/-- JS Math.round (round half towards plus infinity) of the nonnegative
quotient num/den, as used for the neighbour averages. -/
def jsRound (num den : ℕ) : ℕ := (2 * num + den) / (2 * den)

/-- Storing a nonnegative integer into a Uint8ClampedArray clamps it to 255. -/
def byteClamp (v : ℕ) : ℕ := min v 255

/-- The 8-neighbour offsets scanned by sharpDiffusion, in source order. -/
def neighborList (x y : ℤ) : List (ℤ × ℤ) :=
  [(x, y - 1), (x, y + 1), (x - 1, y), (x + 1, y),
   (x - 1, y - 1), (x + 1, y - 1), (x - 1, y + 1), (x + 1, y + 1)]

/-- Flat byte index of the first channel of the pixel at integer coordinates q
(defined for in-bounds q; matches (ny*width+nx)*4 in the source). -/
def pixIdx (w : ℕ) (q : ℤ × ℤ) : ℕ := (q.2.toNat * w + q.1.toNat) * 4

/-- The bounds check nx >= 0 && nx < width && ny >= 0 && ny < height. -/
def inBounds (w h : ℕ) (q : ℤ × ℤ) : Prop :=
  0 ≤ q.1 ∧ q.1 < (w : ℤ) ∧ 0 ≤ q.2 ∧ q.2 < (h : ℤ)

instance (w h : ℕ) (q : ℤ × ℤ) : Decidable (inBounds w h q) := by
  unfold inBounds; infer_instance

/-- Accumulator for the neighbour scan: channel sums and valid-neighbour
count. -/
structure NSum where
  r : ℕ
  g : ℕ
  b : ℕ
  cnt : ℕ
deriving DecidableEq

/-- One step of the neighbour scan: a neighbour contributes iff it is in
bounds and its alpha byte is > 0. -/
def nstep (data : ℕ → ℕ) (w h : ℕ) (acc : NSum) (q : ℤ × ℤ) : NSum :=
  if inBounds w h q then
    if 0 < data (pixIdx w q + 3) then
      ⟨acc.r + data (pixIdx w q), acc.g + data (pixIdx w q + 1),
       acc.b + data (pixIdx w q + 2), acc.cnt + 1⟩
    else acc
  else acc

/-- Sums of the valid 8-neighbours of pixel (x, y). -/
def neighborSum (data : ℕ → ℕ) (w h : ℕ) (x y : ℤ) : NSum :=
  (neighborList x y).foldl (nstep data w h) ⟨0, 0, 0, 0⟩

/-- The colour committed for a worklist pixel: rounded channel averages with
alpha 255 when at least one valid neighbour exists, nothing otherwise. -/
def avgColor (data : ℕ → ℕ) (w h : ℕ) (x y : ℤ) : Option (ℕ × ℕ × ℕ) :=
  let s := neighborSum data w h x y
  if 0 < s.cnt then
    some (byteClamp (jsRound s.r s.cnt), byteClamp (jsRound s.g s.cnt),
          byteClamp (jsRound s.b s.cnt))
  else none

/-- State of the sharpDiffusion loop.  `writes` is a ghost field (not in the
source) counting, per byte index of a pixel's first channel, how many times
that pixel has been committed; the other fields never read it. -/
structure FillState where
  data : ℕ → ℕ
  todo : List ℤ
  remaining : ℤ
  pass : ℕ
  writes : ℕ → ℕ

/-- One pixel of the init loop of sharpDiffusion: a hole pixel is appended to
the worklist and, when not preserving content, has its alpha cleared to 0. -/
def initStep (mData : ℕ → ℕ) (preserveContent : Bool) (s : (ℕ → ℕ) × List ℤ)
    (p : ℕ) : (ℕ → ℕ) × List ℤ :=
  let idx := 4 * p
  if mData (idx + 3) < 128 then
    ((if preserveContent then s.1 else Function.update s.1 (idx + 3) 0),
     s.2 ++ [(idx : ℤ)])
  else s

/-- The init loop of sharpDiffusion over the first n pixels. -/
def initGo (data mData : ℕ → ℕ) (preserveContent : Bool) (n : ℕ) :
    (ℕ → ℕ) × List ℤ :=
  (List.range n).foldl (initStep mData preserveContent) (data, [])

/-- The init loop of sharpDiffusion: enumerate hole pixels into the worklist
and, when not preserving content, clear each hole pixel's alpha to 0. -/
def initFill (data mData : ℕ → ℕ) (w h : ℕ) (preserveContent : Bool) :
    (ℕ → ℕ) × List ℤ :=
  initGo data mData preserveContent (w * h)

/-- The worklist built by the init loop over the first n pixels. -/
def holeTodoGo (mData : ℕ → ℕ) (n : ℕ) : List ℤ :=
  (List.range n).filterMap
    (fun p => if mData (4 * p + 3) < 128 then some ((4 * p : ℕ) : ℤ) else none)

/-- The worklist built by the init loop: the byte index of every hole pixel,
in row-major order. -/
def holeTodoList (mData : ℕ → ℕ) (w h : ℕ) : List ℤ :=
  holeTodoGo mData (w * h)

/-- The newFilled map of one pass: for every live worklist entry whose pixel
has a valid neighbour, the committed colour, in worklist order. -/
def passTargets (data : ℕ → ℕ) (w h : ℕ) (todo : List ℤ) :
    List (ℕ × (ℕ × ℕ × ℕ)) :=
  todo.filterMap (fun e =>
    if e = -1 then none
    else
      match avgColor data w h ((e.toNat / 4 % w : ℕ) : ℤ)
          ((e.toNat / 4 / w : ℕ) : ℤ) with
      | some c => some (e.toNat, c)
      | none => none)

/-- Writing one newFilled entry: R, G, B and alpha 255 at bytes
t.1 .. t.1 + 3. -/
def write4 (d : ℕ → ℕ) (t : ℕ × (ℕ × ℕ × ℕ)) : ℕ → ℕ :=
  Function.update
    (Function.update
      (Function.update (Function.update d t.1 t.2.1) (t.1 + 1) t.2.2.1)
      (t.1 + 2) t.2.2.2)
    (t.1 + 3) 255

/-- The commit loop: write R, G, B and alpha 255 for every newFilled entry. -/
def commitWrites (data : ℕ → ℕ) (l : List (ℕ × (ℕ × ℕ × ℕ))) : ℕ → ℕ :=
  l.foldl write4 data

/-- todoPixels[todoPixels.indexOf(idx)] = -1: blank the first worklist entry
equal to idx. -/
def markFirst : List ℤ → ℕ → List ℤ
  | [], _ => []
  | e :: rest, idx => if e = (idx : ℤ) then (-1) :: rest else e :: markFirst rest idx

/-- Blank every committed pixel's worklist entry (space-fill mode only). -/
def markDone (todo : List ℤ) (l : List (ℕ × (ℕ × ℕ × ℕ))) : List ℤ :=
  l.foldl (fun t x => markFirst t x.1) todo

/-- Ghost bookkeeping: bump the commit counter of every committed pixel. -/
def bumpWrites (wmap : ℕ → ℕ) (l : List (ℕ × (ℕ × ℕ × ℕ))) : ℕ → ℕ :=
  l.foldl (fun m x => Function.update m x.1 (m x.1 + 1)) wmap

/-- One iteration of the while loop, up to (but not including) the pass
counter increment: evaluate the whole pass on the pre-pass snapshot, commit,
and in space-fill mode blank committed entries and decrease `remaining`. -/
def passBody (w h : ℕ) (pc : Bool) (s : FillState) : FillState :=
  let l := passTargets s.data w h s.todo
  { data := commitWrites s.data l
    todo := if pc then s.todo else markDone s.todo l
    remaining := if pc then s.remaining else s.remaining - l.length
    pass := s.pass
    writes := bumpWrites s.writes l }

/-- The while loop of sharpDiffusion.  The fuel argument equals
maxPasses - pass, so fuel > 0 is the source's pass < maxPasses test; the
filledCount === 0 break in space-fill mode returns before the pass counter is
incremented, exactly as in the source. -/
def runLoop (w h : ℕ) (pc : Bool) : ℕ → FillState → FillState
  | 0, s => s
  | fuel + 1, s =>
    if 0 < s.remaining then
      let s' := passBody w h pc s
      if pc = false ∧ (passTargets s.data w h s.todo).length = 0 then s'
      else runLoop w h pc fuel { s' with pass := s'.pass + 1 }
    else s

/-- sharpDiffusion(data, mData, width, height, maxPasses, preserveContent). -/
def sharpDiffusion (data mData : ℕ → ℕ) (w h maxPasses : ℕ) (pc : Bool) :
    FillState :=
  let i := initFill data mData w h pc
  runLoop w h pc maxPasses
    { data := i.1, todo := i.2, remaining := (i.2.length : ℤ), pass := 0,
      writes := fun _ => 0 }

/-- The chart branch of performInpainting: sharpDiffusion at full resolution
with maxPasses = max(width, height) and preserveContent = false. -/
def performInpaintingChart (data mData : ℕ → ℕ) (w h : ℕ) : FillState :=
  sharpDiffusion data mData w h (max w h) false

/-- Drawing a mask of dimensions mw x mh at the origin of the w x h mask
canvas: covered pixels copy the mask byte, uncovered pixels stay at the
canvas's initial transparent black (every byte 0). -/
def extendMask (mData : ℕ → ℕ) (mw mh w h : ℕ) : ℕ → ℕ := fun j =>
  let p := j / 4
  let x := p % w
  let y := p / w
  if x < mw ∧ y < mh then mData ((y * mw + x) * 4 + j % 4) else 0

/-- The chart branch of performInpainting including the mask-canvas draw
step, for image dimensions (w, h) and mask dimensions (mw, mh); the source
never compares the two dimension pairs. -/
def performInpaintingChartFull (data mData : ℕ → ℕ) (mw mh w h : ℕ) :
    FillState :=
  sharpDiffusion data (extendMask mData mw mh w h) w h (max w h) false

/-- ECMAScript ToUint8Clamp: clamp to [0, 255] and round half to even. -/
def jsUint8Clamp (q : ℚ) : ℕ :=
  if q ≤ 0 then 0
  else if 255 ≤ q then 255
  else if q - ⌊q⌋ < 1 / 2 then (⌊q⌋).toNat
  else if (1 : ℚ) / 2 < q - ⌊q⌋ then (⌊q⌋ + 1).toNat
  else if ⌊q⌋ % 2 = 0 then (⌊q⌋).toNat else (⌊q⌋ + 1).toNat

/-- One texturized channel: Math.max(0, Math.min(255, smoothData[j] + noise))
stored into the Uint8ClampedArray. -/
def texVal (smooth : ℕ → ℕ) (noise : ℚ) (j : ℕ) : ℕ :=
  jsUint8Clamp (max 0 (min 255 ((smooth j : ℚ) + noise)))

/-- The four texturizer writes of one hole pixel whose first channel sits at
byte i: the same noise value goes into R, G and B, and alpha is forced to
255. -/
def texWrite (d smooth : ℕ → ℕ) (noise : ℚ) (i : ℕ) : ℕ → ℕ :=
  Function.update
    (Function.update
      (Function.update (Function.update d i (texVal smooth noise i))
        (i + 1) (texVal smooth noise (i + 1)))
      (i + 2) (texVal smooth noise (i + 2)))
    (i + 3) 255

/-- One pixel of the final noise composite of hierarchicalInpaint: at a hole
pixel draw one random sample, add the same noise to R, G and B of the smooth
(pyramid) value and force alpha 255; elsewhere keep the original pixel.  The
second accumulator component counts random samples drawn so far. -/
def texStep (mData smooth : ℕ → ℕ) (rand : ℕ → ℚ) (acc : (ℕ → ℕ) × ℕ) (p : ℕ) :
    (ℕ → ℕ) × ℕ :=
  if mData (4 * p + 3) < 128 then
    (texWrite acc.1 smooth ((rand acc.2 - 1 / 2) * 12) (4 * p), acc.2 + 1)
  else acc

/-- The final noise composite of hierarchicalInpaint over the first n
pixels. -/
def texGo (orig smooth mData : ℕ → ℕ) (rand : ℕ → ℚ) (n : ℕ) : (ℕ → ℕ) × ℕ :=
  (List.range n).foldl (texStep mData smooth rand) (orig, 0)

/-- The final noise composite of hierarchicalInpaint (photo mode), with the
Math.random() stream modelled as an explicit sequence of rationals in [0,1). -/
def texturize (orig smooth mData : ℕ → ℕ) (w h : ℕ) (rand : ℕ → ℚ) : ℕ → ℕ :=
  (texGo orig smooth mData rand (w * h)).1

/-- Number of hole pixels strictly before pixel p in row-major order (the
index into the random stream used at pixel p). -/
def holeCountBefore (mData : ℕ → ℕ) (p : ℕ) : ℕ :=
  ((List.range p).filter (fun q => mData (4 * q + 3) < 128)).length

/-- The noise value drawn at hole pixel p. -/
def noiseAt (mData : ℕ → ℕ) (rand : ℕ → ℚ) (p : ℕ) : ℚ :=
  (rand (holeCountBefore mData p) - 1 / 2) * 12

/-
  Characterization of the init loop.
-/

lemma holeTodoGo_succ (mData : ℕ → ℕ) (n : ℕ) :
    holeTodoGo mData (n + 1) =
      holeTodoGo mData n ++
        (if mData (4 * n + 3) < 128 then [((4 * n : ℕ) : ℤ)] else []) := by
  unfold holeTodoGo
  rw [List.range_succ, List.filterMap_append]
  by_cases hm : mData (4 * n + 3) < 128 <;> simp [hm]

lemma initGo_succ (data mData : ℕ → ℕ) (pc : Bool) (n : ℕ) :
    initGo data mData pc (n + 1) = initStep mData pc (initGo data mData pc n) n := by
  unfold initGo
  rw [List.range_succ, List.foldl_append]
  rfl

lemma initGo_todo (data mData : ℕ → ℕ) (pc : Bool) (n : ℕ) :
    (initGo data mData pc n).2 = holeTodoGo mData n := by
  induction n with
  | zero => rfl
  | succ n ih =>
    rw [initGo_succ, holeTodoGo_succ]
    unfold initStep
    by_cases hm : mData (4 * n + 3) < 128 <;> simp [hm, ih]

lemma initGo_data_true (data mData : ℕ → ℕ) (n : ℕ) (j : ℕ) :
    (initGo data mData true n).1 j = data j := by
  induction n with
  | zero => rfl
  | succ n ih =>
    rw [initGo_succ]
    unfold initStep
    by_cases hm : mData (4 * n + 3) < 128 <;> simp [hm, ih]

lemma initGo_data_false (data mData : ℕ → ℕ) (n : ℕ) (j : ℕ) :
    (initGo data mData false n).1 j =
      if j % 4 = 3 ∧ j / 4 < n ∧ mData j < 128 then 0 else data j := by
  induction n with
  | zero =>
    rw [if_neg]
    · rfl
    · rintro ⟨_, hlt, _⟩; omega
  | succ n ih =>
    rw [initGo_succ]
    unfold initStep
    by_cases hm : mData (4 * n + 3) < 128
    · simp only [if_pos hm, Bool.false_eq_true, if_false]
      by_cases hj : j = 4 * n + 3
      · subst hj
        rw [Function.update_same, if_pos]
        exact ⟨by omega, by omega, hm⟩
      · rw [Function.update_noteq hj, ih]
        congr 1
        by_cases h3 : j % 4 = 3
        · by_cases hmj : mData j < 128
          · simp only [h3, hmj, true_and, and_true, eq_iff_iff]
            omega
          · simp [hmj]
        · simp [h3]
    · rw [if_neg hm, ih]
      congr 1
      by_cases h3 : j % 4 = 3
      · by_cases hmj : mData j < 128
        · simp only [h3, hmj, true_and, and_true, eq_iff_iff]
          constructor
          · omega
          · intro hlt
            rcases Nat.lt_or_ge (j / 4) n with hc | hc
            · exact hc
            · exfalso
              have : j = 4 * n + 3 := by omega
              rw [this] at hmj; exact hm hmj
        · simp [hmj]
      · simp [h3]

lemma initFill_todo (data mData : ℕ → ℕ) (w h : ℕ) (pc : Bool) :
    (initFill data mData w h pc).2 = holeTodoList mData w h :=
  initGo_todo data mData pc (w * h)

lemma holeTodoList_mem (mData : ℕ → ℕ) (w h : ℕ) (e : ℤ) :
    e ∈ holeTodoList mData w h ↔
      ∃ p, p < w * h ∧ e = ((4 * p : ℕ) : ℤ) ∧ mData (4 * p + 3) < 128 := by
  unfold holeTodoList holeTodoGo
  rw [List.mem_filterMap]
  constructor
  · rintro ⟨p, hp, hf⟩
    rw [List.mem_range] at hp
    by_cases hm : mData (4 * p + 3) < 128
    · rw [if_pos hm] at hf
      exact ⟨p, hp, (Option.some_inj.mp hf).symm, hm⟩
    · rw [if_neg hm] at hf; cases hf
  · rintro ⟨p, hp, he, hm⟩
    exact ⟨p, List.mem_range.mpr hp, by rw [if_pos hm, he]⟩

lemma holeTodoList_nodup (mData : ℕ → ℕ) (w h : ℕ) :
    (holeTodoList mData w h).Nodup := by
  unfold holeTodoList holeTodoGo
  apply List.Nodup.filterMap
  · intro p q e hp hq
    by_cases hmp : mData (4 * p + 3) < 128
    · by_cases hmq : mData (4 * q + 3) < 128
      · rw [if_pos hmp] at hp
        rw [if_pos hmq] at hq
        have h1 := Option.some_inj.mp hp
        have h2 := Option.some_inj.mp hq
        omega
      · rw [if_neg hmq] at hq; cases hq
    · rw [if_neg hmp] at hp; cases hp
  · exact List.nodup_range _

/-
  Lemmas about the commit loop.
-/

/-- Channel c of a committed colour (c = 3 is the forced alpha 255). -/
def chanVal (t : ℕ × (ℕ × ℕ × ℕ)) (c : ℕ) : ℕ :=
  if c = 0 then t.2.1 else if c = 1 then t.2.2.1 else if c = 2 then t.2.2.2
  else 255

lemma write4_at (d : ℕ → ℕ) (t : ℕ × (ℕ × ℕ × ℕ)) (c : ℕ) (hc : c < 4) :
    write4 d t (t.1 + c) = chanVal t c := by
  unfold write4 chanVal
  interval_cases c
  · rw [Function.update_noteq (by omega), Function.update_noteq (by omega),
      Function.update_noteq (by omega)]
    simp
  · rw [Function.update_noteq (by omega), Function.update_noteq (by omega),
      Function.update_same]
    simp
  · rw [Function.update_noteq (by omega), Function.update_same]
    simp
  · rw [Function.update_same]
    simp

lemma write4_noteq (d : ℕ → ℕ) (t : ℕ × (ℕ × ℕ × ℕ)) (j : ℕ)
    (hj : ∀ c, c < 4 → j ≠ t.1 + c) : write4 d t j = d j := by
  unfold write4
  rw [Function.update_noteq (hj 3 (by omega)),
    Function.update_noteq (hj 2 (by omega)),
    Function.update_noteq (hj 1 (by omega))]
  have h0 := hj 0 (by omega)
  rw [Function.update_noteq (by omega)]

lemma commitWrites_nil (d : ℕ → ℕ) : commitWrites d [] = d := rfl

lemma commitWrites_cons (d : ℕ → ℕ) (t : ℕ × (ℕ × ℕ × ℕ)) (l) :
    commitWrites d (t :: l) = commitWrites (write4 d t) l := rfl

lemma commitWrites_not_mem (l : List (ℕ × (ℕ × ℕ × ℕ))) :
    ∀ (d : ℕ → ℕ) (j : ℕ), (∀ t ∈ l, ∀ c, c < 4 → j ≠ t.1 + c) →
    commitWrites d l j = d j := by
  induction l with
  | nil => intro d j _; rfl
  | cons a l ih =>
    intro d j hj
    rw [commitWrites_cons, ih _ _ (fun t ht => hj t (List.mem_cons_of_mem a ht)),
      write4_noteq _ _ _ (hj a (List.mem_cons_self a l))]

lemma commitWrites_at (l : List (ℕ × (ℕ × ℕ × ℕ))) :
    ∀ (d : ℕ → ℕ) (t : ℕ × (ℕ × ℕ × ℕ)), t ∈ l →
    (∀ t' ∈ l, ∃ p, t'.1 = 4 * p) → (l.map Prod.fst).Nodup →
    ∀ c, c < 4 → commitWrites d l (t.1 + c) = chanVal t c := by
  induction l with
  | nil => intro d t ht; cases ht
  | cons a l ih =>
    intro d t ht hal hnd c hc
    rw [List.map_cons, List.nodup_cons] at hnd
    rcases List.mem_cons.mp ht with rfl | htl
    · rw [commitWrites_cons]
      rw [commitWrites_not_mem]
      · exact write4_at d t c hc
      · intro t' ht' c' hc'
        rcases hal t' (List.mem_cons_of_mem _ ht') with ⟨q, hq⟩
        rcases hal t (List.mem_cons_self _ _) with ⟨p, hp⟩
        have hne : t.1 ≠ t'.1 := by
          intro hEq
          exact hnd.1 (hEq ▸ List.mem_map_of_mem Prod.fst ht')
        omega
    · rw [commitWrites_cons]
      exact ih _ t htl (fun t' ht' => hal t' (List.mem_cons_of_mem _ ht')) hnd.2 c hc

lemma commitWrites_alpha (l : List (ℕ × (ℕ × ℕ × ℕ))) :
    ∀ (d : ℕ → ℕ) (p : ℕ), (∀ t ∈ l, ∃ q, t.1 = 4 * q) →
    commitWrites d l (4 * p + 3) = d (4 * p + 3) ∨
      commitWrites d l (4 * p + 3) = 255 := by
  induction l with
  | nil => intro d p _; left; rfl
  | cons a l ih =>
    intro d p hal
    rw [commitWrites_cons]
    by_cases ha : a.1 = 4 * p
    · rcases ih (write4 d a) p (fun t ht => hal t (List.mem_cons_of_mem _ ht)) with
        h | h
      · right
        rw [h]
        have := write4_at d a 3 (by omega)
        rw [ha] at this
        rw [this]
        rfl
      · right; exact h
    · rcases hal a (List.mem_cons_self _ _) with ⟨q, hq⟩
      have hw : write4 d a (4 * p + 3) = d (4 * p + 3) := by
        apply write4_noteq
        intro c hc
        omega
      rcases ih (write4 d a) p (fun t ht => hal t (List.mem_cons_of_mem _ ht)) with
        h | h
      · left; rw [h, hw]
      · right; exact h

lemma commitWrites_alpha_pos (l : List (ℕ × (ℕ × ℕ × ℕ))) (d : ℕ → ℕ) (p : ℕ)
    (hal : ∀ t ∈ l, ∃ q, t.1 = 4 * q) (hd : 0 < d (4 * p + 3)) :
    0 < commitWrites d l (4 * p + 3) := by
  rcases commitWrites_alpha l d p hal with h | h <;> rw [h] <;> omega

lemma commitWrites_pixel_untouched (l : List (ℕ × (ℕ × ℕ × ℕ))) (d : ℕ → ℕ)
    (p : ℕ) (hal : ∀ t ∈ l, ∃ q, t.1 = 4 * q) (hne : ∀ t ∈ l, t.1 ≠ 4 * p)
    (c : ℕ) (hc : c < 4) : commitWrites d l (4 * p + c) = d (4 * p + c) := by
  apply commitWrites_not_mem
  intro t ht c' hc'
  rcases hal t ht with ⟨q, hq⟩
  have := hne t ht
  omega

/-
  Lemmas about worklist marking.
-/

/-- The live (not yet blanked) entries of a worklist. -/
def activeL (t : List ℤ) : List ℤ := t.filter (fun e => e != -1)

lemma activeL_nil : activeL [] = [] := rfl

lemma activeL_cons (e : ℤ) (t : List ℤ) :
    activeL (e :: t) = if e = -1 then activeL t else e :: activeL t := by
  unfold activeL
  by_cases he : e = -1
  · simp [he, List.filter]
  · simp [List.filter_cons, he]

lemma activeL_mem (t : List ℤ) (e : ℤ) :
    e ∈ activeL t ↔ e ∈ t ∧ e ≠ -1 := by
  unfold activeL
  rw [List.mem_filter]
  simp

lemma markFirst_filter (t : List ℤ) (idx : ℕ) :
    activeL (markFirst t idx) = (activeL t).erase ((idx : ℕ) : ℤ) := by
  induction t with
  | nil => rfl
  | cons e rest ih =>
    unfold markFirst
    by_cases he : e = (idx : ℤ)
    · rw [if_pos he]
      rw [activeL_cons, if_pos rfl, activeL_cons, if_neg (by omega)]
      rw [he, List.erase_cons_head]
    · rw [if_neg he]
      by_cases hm : e = -1
      · rw [activeL_cons, if_pos hm, activeL_cons, if_pos hm, ih]
      · rw [activeL_cons, if_neg hm, activeL_cons, if_neg hm,
          List.erase_cons_tail, ih]
        simp [he]

lemma markFirst_entries (t : List ℤ) (idx : ℕ) (e : ℤ)
    (he : e ∈ markFirst t idx) : e ∈ t ∨ e = -1 := by
  induction t with
  | nil => cases he
  | cons a rest ih =>
    unfold markFirst at he
    by_cases ha : a = (idx : ℤ)
    · rw [if_pos ha] at he
      rcases List.mem_cons.mp he with rfl | h
      · right; rfl
      · left; exact List.mem_cons_of_mem a h
    · rw [if_neg ha] at he
      rcases List.mem_cons.mp he with rfl | h
      · left; exact List.mem_cons_self _ _
      · rcases ih h with h' | h'
        · left; exact List.mem_cons_of_mem a h'
        · right; exact h'

/-- The first-channel byte indices of the commit list, as integers. -/
def fstsZ (l : List (ℕ × (ℕ × ℕ × ℕ))) : List ℤ :=
  l.map (fun t => ((t.1 : ℕ) : ℤ))

lemma markDone_filter (l : List (ℕ × (ℕ × ℕ × ℕ))) :
    ∀ todo : List ℤ,
      activeL (markDone todo l) = (fstsZ l).foldl List.erase (activeL todo) := by
  induction l with
  | nil => intro todo; rfl
  | cons a l ih =>
    intro todo
    show activeL (markDone (markFirst todo a.1) l) = _
    rw [ih, markFirst_filter]
    rfl

lemma markDone_entries (l : List (ℕ × (ℕ × ℕ × ℕ))) :
    ∀ (todo : List ℤ) (e : ℤ), e ∈ markDone todo l → e ∈ todo ∨ e = -1 := by
  induction l with
  | nil => intro todo e he; left; exact he
  | cons a l ih =>
    intro todo e he
    rcases ih _ e he with h | h
    · rcases markFirst_entries todo a.1 e h with h' | h'
      · left; exact h'
      · right; exact h'
    · right; exact h

lemma erase_foldl_nodup (L : List ℤ) :
    ∀ A : List ℤ, A.Nodup → (L.foldl List.erase A).Nodup := by
  induction L with
  | nil => intro A hA; exact hA
  | cons b L ih => intro A hA; exact ih _ (hA.erase b)

lemma erase_foldl_mem (L : List ℤ) :
    ∀ A : List ℤ, A.Nodup → ∀ x : ℤ,
      (x ∈ L.foldl List.erase A ↔ x ∈ A ∧ x ∉ L) := by
  induction L with
  | nil => intro A _ x; simp
  | cons b L ih =>
    intro A hA x
    show x ∈ L.foldl List.erase (A.erase b) ↔ _
    rw [ih _ (hA.erase b), hA.mem_erase_iff]
    simp only [List.mem_cons]
    tauto

lemma erase_foldl_length (L : List ℤ) :
    ∀ A : List ℤ, A.Nodup → L.Nodup → (∀ x ∈ L, x ∈ A) →
      (L.foldl List.erase A).length + L.length = A.length := by
  induction L with
  | nil => intro A _ _ _; simp
  | cons b L ih =>
    intro A hA hL hsub
    rw [List.nodup_cons] at hL
    show (L.foldl List.erase (A.erase b)).length + (L.length + 1) = A.length
    have hb : b ∈ A := hsub b (List.mem_cons_self _ _)
    have hlen : (A.erase b).length + 1 = A.length := by
      rw [List.length_erase_of_mem hb]
      have : 0 < A.length := List.length_pos_of_mem hb
      omega
    have hsub' : ∀ x ∈ L, x ∈ A.erase b := by
      intro x hx
      have hxb : x ≠ b := fun hEq => hL.1 (hEq ▸ hx)
      exact (List.mem_erase_of_ne hxb).mpr (hsub x (List.mem_cons_of_mem b hx))
    have := ih (A.erase b) (hA.erase b) hL.2 hsub'
    omega

lemma bumpWrites_at (l : List (ℕ × (ℕ × ℕ × ℕ))) :
    ∀ (wm : ℕ → ℕ) (i : ℕ), (l.map Prod.fst).Nodup →
      bumpWrites wm l i =
        wm i + (if i ∈ l.map Prod.fst then 1 else 0) := by
  induction l with
  | nil => intro wm i _; simp [bumpWrites]
  | cons a l ih =>
    intro wm i hnd
    rw [List.map_cons, List.nodup_cons] at hnd
    show bumpWrites (Function.update wm a.1 (wm a.1 + 1)) l i = _
    rw [ih _ _ hnd.2]
    by_cases hi : i = a.1
    · subst hi
      rw [if_neg hnd.1, Function.update_same, List.map_cons,
        if_pos (List.mem_cons_self _ _)]
    · rw [Function.update_noteq hi, List.map_cons]
      by_cases hm : i ∈ l.map Prod.fst
      · rw [if_pos hm, if_pos (List.mem_cons_of_mem _ hm)]
      · rw [if_neg hm, if_neg (by simp [hi, hm])]

/-
  Pixel numbers versus integer coordinates.
-/

/-- The coordinates (idx/4 % width, idx/4 / width) recovered from a pixel
number, as in the pass loop of the source. -/
def coordOf (w : ℕ) (p : ℕ) : ℤ × ℤ := (((p % w : ℕ) : ℤ), ((p / w : ℕ) : ℤ))

/-- The pixel number of in-bounds coordinates. -/
def pOf (w : ℕ) (q : ℤ × ℤ) : ℕ := q.2.toNat * w + q.1.toNat

lemma coordOf_inBounds (w h p : ℕ) (hp : p < w * h) :
    inBounds w h (coordOf w p) := by
  have hw : 0 < w := by
    rcases Nat.eq_zero_or_pos w with h0 | h0
    · subst h0; omega
    · exact h0
  have hmod : p % w < w := Nat.mod_lt p hw
  have hdiv : p / w < h := Nat.div_lt_of_lt_mul (by omega)
  unfold inBounds coordOf
  refine ⟨Int.ofNat_nonneg _, ?_, Int.ofNat_nonneg _, ?_⟩
  · show ((p % w : ℕ) : ℤ) < (w : ℤ)
    exact_mod_cast hmod
  · show ((p / w : ℕ) : ℤ) < (h : ℤ)
    exact_mod_cast hdiv

lemma pixIdx_coordOf (w h p : ℕ) (hp : p < w * h) :
    pixIdx w (coordOf w p) = 4 * p := by
  unfold pixIdx coordOf
  simp only [Int.toNat_ofNat]
  have h1 := Nat.div_add_mod p w
  have h2 : p / w * w = w * (p / w) := Nat.mul_comm _ _
  omega

lemma pOf_lt (w h : ℕ) (q : ℤ × ℤ) (hq : inBounds w h q) : pOf w q < w * h := by
  rcases hq with ⟨h1, h2, h3, h4⟩
  unfold pOf
  have hx : q.1.toNat < w := by omega
  have hy : q.2.toNat < h := by omega
  calc q.2.toNat * w + q.1.toNat < q.2.toNat * w + w := by omega
    _ = (q.2.toNat + 1) * w := by ring
    _ ≤ h * w := Nat.mul_le_mul_right w hy
    _ = w * h := Nat.mul_comm h w

lemma pixIdx_eq (w : ℕ) (q : ℤ × ℤ) : pixIdx w q = 4 * pOf w q := by
  unfold pixIdx pOf; ring

lemma coordOf_pOf (w h : ℕ) (q : ℤ × ℤ) (hq : inBounds w h q) :
    coordOf w (pOf w q) = q := by
  rcases hq with ⟨h1, h2, h3, h4⟩
  unfold coordOf pOf
  have hx : q.1.toNat < w := by omega
  have heq1 : (q.2.toNat * w + q.1.toNat) % w = q.1.toNat := by
    rw [Nat.mul_comm, Nat.mul_add_mod, Nat.mod_eq_of_lt hx]
  have heq2 : (q.2.toNat * w + q.1.toNat) / w = q.2.toNat := by
    rw [Nat.mul_comm, Nat.mul_add_div (by omega : 0 < w),
      Nat.div_eq_of_lt hx]
    omega
  rw [heq1, heq2]
  ext <;> simp <;> omega

/-
  Lemmas about passTargets.
-/

lemma passTargets_mem (d : ℕ → ℕ) (w h : ℕ) (todo : List ℤ)
    (t : ℕ × (ℕ × ℕ × ℕ)) :
    t ∈ passTargets d w h todo ↔
      ∃ e ∈ todo, e ≠ -1 ∧ t.1 = e.toNat ∧
        avgColor d w h ((e.toNat / 4 % w : ℕ) : ℤ) ((e.toNat / 4 / w : ℕ) : ℤ) =
          some t.2 := by
  unfold passTargets
  rw [List.mem_filterMap]
  constructor
  · rintro ⟨e, he, hf⟩
    by_cases hne : e = -1
    · rw [if_pos hne] at hf; cases hf
    · rw [if_neg hne] at hf
      rcases hav : avgColor d w h ((e.toNat / 4 % w : ℕ) : ℤ)
          ((e.toNat / 4 / w : ℕ) : ℤ) with _ | c
      · rw [hav] at hf; cases hf
      · rw [hav] at hf
        have := Option.some_inj.mp hf
        refine ⟨e, he, hne, ?_, ?_⟩
        · rw [← this]
        · rw [hav, ← this]
  · rintro ⟨e, he, hne, hfst, hav⟩
    refine ⟨e, he, ?_⟩
    rw [if_neg hne, hav]
    rw [Option.some_inj]
    exact Prod.ext hfst.symm rfl

lemma passTargets_mem_of (d : ℕ → ℕ) (w h : ℕ) (todo : List ℤ) (e : ℤ)
    (c : ℕ × ℕ × ℕ) (he : e ∈ todo) (hne : e ≠ -1)
    (hav : avgColor d w h ((e.toNat / 4 % w : ℕ) : ℤ)
      ((e.toNat / 4 / w : ℕ) : ℤ) = some c) :
    (e.toNat, c) ∈ passTargets d w h todo :=
  (passTargets_mem d w h todo (e.toNat, c)).mpr ⟨e, he, hne, rfl, hav⟩

lemma passTargets_fst_mem (d : ℕ → ℕ) (w h : ℕ) (todo : List ℤ) (x : ℕ)
    (hx : x ∈ (passTargets d w h todo).map Prod.fst) :
    ∃ e ∈ todo, e ≠ -1 ∧ e.toNat = x := by
  rcases List.mem_map.mp hx with ⟨t, ht, hfst⟩
  rcases (passTargets_mem d w h todo t).mp ht with ⟨e, he, hne, h1, _⟩
  exact ⟨e, he, hne, by rw [← h1, hfst]⟩

lemma passTargets_fsts_nodup (d : ℕ → ℕ) (w h : ℕ) :
    ∀ todo : List ℤ, (activeL todo).Nodup → (∀ e ∈ todo, e = -1 ∨ 0 ≤ e) →
      ((passTargets d w h todo).map Prod.fst).Nodup := by
  intro todo
  induction todo with
  | nil => intro _ _; simp [passTargets]
  | cons e todo ih =>
    intro hnd hent
    unfold passTargets
    rw [List.filterMap_cons]
    have hentl : ∀ e' ∈ todo, e' = -1 ∨ 0 ≤ e' :=
      fun e' he' => hent e' (List.mem_cons_of_mem e he')
    by_cases hne : e = -1
    · rw [if_pos hne]
      apply ih _ hentl
      rw [activeL_cons, if_pos hne] at hnd
      exact hnd
    · rw [if_neg hne]
      rw [activeL_cons, if_neg hne, List.nodup_cons] at hnd
      rcases hav : avgColor d w h ((e.toNat / 4 % w : ℕ) : ℤ)
          ((e.toNat / 4 / w : ℕ) : ℤ) with _ | c
      · exact ih hnd.2 hentl
      · rw [List.map_cons, List.nodup_cons]
        constructor
        · intro hmem
          rcases passTargets_fst_mem d w h todo e.toNat hmem with ⟨e', he', hne', hx⟩
          have h0 : 0 ≤ e := by rcases hent e (List.mem_cons_self _ _) with h | h
                                · exact absurd h hne
                                · exact h
          have h0' : 0 ≤ e' := by rcases hentl e' he' with h | h
                                  · exact absurd h hne'
                                  · exact h
          have : e' = e := by omega
          exact hnd.1 ((activeL_mem todo e).mpr ⟨this ▸ he', hne⟩)
        · exact ih hnd.2 hentl

/-
  Lemmas about the neighbour scan.
-/

/-- b is one of the 8 grid neighbours scanned for a. -/
def adj8 (a b : ℤ × ℤ) : Prop := b ∈ neighborList a.1 a.2

instance (a b : ℤ × ℤ) : Decidable (adj8 a b) := by
  unfold adj8; infer_instance

lemma nstep_cnt_le (d : ℕ → ℕ) (w h : ℕ) (acc : NSum) (q : ℤ × ℤ) :
    acc.cnt ≤ (nstep d w h acc q).cnt := by
  unfold nstep
  split
  · split
    · simp
    · exact le_refl _
  · exact le_refl _

lemma foldl_nstep_cnt_le (d : ℕ → ℕ) (w h : ℕ) (l : List (ℤ × ℤ)) :
    ∀ acc : NSum, acc.cnt ≤ (l.foldl (nstep d w h) acc).cnt := by
  induction l with
  | nil => intro acc; exact le_refl _
  | cons q l ih =>
    intro acc
    exact le_trans (nstep_cnt_le d w h acc q) (ih _)

lemma foldl_nstep_cnt_pos (d : ℕ → ℕ) (w h : ℕ) (l : List (ℤ × ℤ)) :
    ∀ acc : NSum, ∀ r ∈ l, inBounds w h r → 0 < d (pixIdx w r + 3) →
      0 < (l.foldl (nstep d w h) acc).cnt := by
  induction l with
  | nil => intro _ r hr; cases hr
  | cons q l ih =>
    intro acc r hr hin hpos
    rcases List.mem_cons.mp hr with rfl | hrl
    · have hstep : 0 < (nstep d w h acc r).cnt := by
        unfold nstep
        rw [if_pos hin, if_pos hpos]
        simp
      exact lt_of_lt_of_le hstep (foldl_nstep_cnt_le d w h l _)
    · exact ih _ r hrl hin hpos

lemma avgColor_isSome (d : ℕ → ℕ) (w h : ℕ) (x y : ℤ) (r : ℤ × ℤ)
    (hr : r ∈ neighborList x y) (hin : inBounds w h r)
    (hpos : 0 < d (pixIdx w r + 3)) :
    ∃ c, avgColor d w h x y = some c := by
  unfold avgColor neighborSum
  rw [if_pos (foldl_nstep_cnt_pos d w h _ _ r hr hin hpos)]
  exact ⟨_, rfl⟩

lemma foldl_nstep_cnt_zero (d : ℕ → ℕ) (w h : ℕ) (l : List (ℤ × ℤ)) :
    ∀ acc : NSum, (∀ q ∈ l, inBounds w h q → d (pixIdx w q + 3) = 0) →
      (l.foldl (nstep d w h) acc).cnt = acc.cnt := by
  induction l with
  | nil => intro acc _; rfl
  | cons q l ih =>
    intro acc hz
    have hq : nstep d w h acc q = acc := by
      unfold nstep
      by_cases hin : inBounds w h q
      · rw [if_pos hin, if_neg (by rw [hz q (List.mem_cons_self _ _) hin]; omega)]
      · rw [if_neg hin]
    show (l.foldl (nstep d w h) (nstep d w h acc q)).cnt = acc.cnt
    rw [hq]
    exact ih acc (fun q' hq' => hz q' (List.mem_cons_of_mem q hq'))

lemma avgColor_none (d : ℕ → ℕ) (w h : ℕ) (x y : ℤ)
    (hz : ∀ q ∈ neighborList x y, inBounds w h q → d (pixIdx w q + 3) = 0) :
    avgColor d w h x y = none := by
  unfold avgColor neighborSum
  rw [if_neg]
  rw [foldl_nstep_cnt_zero d w h _ _ hz]
  simp

/-
  The space-fill loop invariant.
-/

/-- Invariant of the space-fill (preserveContent = false) loop: worklist
entries are blanked or hole-pixel byte indices; live entries are pairwise
distinct, have alpha 0 and cover exactly the unfilled holes; committed holes
have alpha 255; keep pixels still hold the post-init (= original) bytes;
`remaining` counts live entries; and every pixel has been committed at most
once, never while still live. -/
structure ChartInv (d0 mData : ℕ → ℕ) (w h : ℕ) (s : FillState) : Prop where
  entries : ∀ e ∈ s.todo, e = -1 ∨
    ∃ p, p < w * h ∧ e = ((4 * p : ℕ) : ℤ) ∧ mData (4 * p + 3) < 128
  nodup : (activeL s.todo).Nodup
  activeAlpha : ∀ e ∈ activeL s.todo, s.data (e.toNat + 3) = 0
  holeStatus : ∀ p, p < w * h → mData (4 * p + 3) < 128 →
    ((4 * p : ℕ) : ℤ) ∈ activeL s.todo ∨ s.data (4 * p + 3) = 255
  keepData : ∀ p, p < w * h → 128 ≤ mData (4 * p + 3) →
    ∀ c, c < 4 → s.data (4 * p + c) = d0 (4 * p + c)
  remCount : s.remaining = ((activeL s.todo).length : ℤ)
  wOnce : ∀ i, s.writes i ≤ 1
  wActive : ∀ i, 0 < s.writes i → ((i : ℕ) : ℤ) ∉ activeL s.todo

lemma activeL_of_no_neg (t : List ℤ) (ht : ∀ e ∈ t, e ≠ -1) :
    activeL t = t := by
  unfold activeL
  rw [List.filter_eq_self]
  intro e he
  simp [ht e he]

lemma passBody_false (w h : ℕ) (s : FillState) :
    passBody w h false s =
      { data := commitWrites s.data (passTargets s.data w h s.todo)
        todo := markDone s.todo (passTargets s.data w h s.todo)
        remaining := s.remaining - (passTargets s.data w h s.todo).length
        pass := s.pass
        writes := bumpWrites s.writes (passTargets s.data w h s.todo) } := by
  unfold passBody
  simp

lemma passBody_true (w h : ℕ) (s : FillState) :
    passBody w h true s =
      { data := commitWrites s.data (passTargets s.data w h s.todo)
        todo := s.todo
        remaining := s.remaining
        pass := s.pass
        writes := bumpWrites s.writes (passTargets s.data w h s.todo) } := by
  unfold passBody
  simp

lemma runLoop_succ (w h : ℕ) (pc : Bool) (fuel : ℕ) (s : FillState) :
    runLoop w h pc (fuel + 1) s =
      if 0 < s.remaining then
        if pc = false ∧ (passTargets s.data w h s.todo).length = 0 then
          passBody w h pc s
        else
          runLoop w h pc fuel
            { passBody w h pc s with pass := (passBody w h pc s).pass + 1 }
      else s := rfl

/-- The initial state handed to the loop by sharpDiffusion. -/
def initState (data mData : ℕ → ℕ) (w h : ℕ) (pc : Bool) : FillState :=
  { data := (initFill data mData w h pc).1
    todo := (initFill data mData w h pc).2
    remaining := ((initFill data mData w h pc).2.length : ℤ)
    pass := 0
    writes := fun _ => 0 }

lemma sharpDiffusion_eq (data mData : ℕ → ℕ) (w h maxPasses : ℕ) (pc : Bool) :
    sharpDiffusion data mData w h maxPasses pc =
      runLoop w h pc maxPasses (initState data mData w h pc) := rfl

lemma holeTodo_no_neg (mData : ℕ → ℕ) (w h : ℕ) :
    ∀ e ∈ holeTodoList mData w h, e ≠ -1 := by
  intro e he
  rcases (holeTodoList_mem mData w h e).mp he with ⟨p, _, rfl, _⟩
  omega

lemma chartInv_initState (d0 mData : ℕ → ℕ) (w h : ℕ) :
    ChartInv d0 mData w h (initState d0 mData w h false) := by
  have htodo : (initFill d0 mData w h false).2 = holeTodoList mData w h :=
    initFill_todo d0 mData w h false
  have hact : activeL (initState d0 mData w h false).todo = holeTodoList mData w h := by
    show activeL (initFill d0 mData w h false).2 = _
    rw [htodo]
    exact activeL_of_no_neg _ (holeTodo_no_neg mData w h)
  have hdata : ∀ j, (initState d0 mData w h false).data j =
      if j % 4 = 3 ∧ j / 4 < w * h ∧ mData j < 128 then 0 else d0 j :=
    fun j => initGo_data_false d0 mData (w * h) j
  refine ⟨?_, ?_, ?_, ?_, ?_, ?_, ?_, ?_⟩
  · intro e he
    rw [show (initState d0 mData w h false).todo = holeTodoList mData w h from htodo] at he
    rcases (holeTodoList_mem mData w h e).mp he with ⟨p, hp, he', hm⟩
    exact Or.inr ⟨p, hp, he', hm⟩
  · rw [hact]; exact holeTodoList_nodup mData w h
  · intro e he
    rw [hact] at he
    rcases (holeTodoList_mem mData w h e).mp he with ⟨p, hp, rfl, hm⟩
    rw [hdata]
    rw [if_pos]
    exact ⟨by omega, by omega, hm⟩
  · intro p hp hm
    left
    rw [hact]
    exact (holeTodoList_mem mData w h _).mpr ⟨p, hp, rfl, hm⟩
  · intro p hp hm c hc
    rw [hdata]
    rw [if_neg]
    rintro ⟨h3, _, hmj⟩
    have : c = 3 := by omega
    subst this
    omega
  · show ((initFill d0 mData w h false).2.length : ℤ) = _
    rw [htodo, hact]
  · intro i; exact Nat.zero_le 1
  · intro i hi
    simp only [initState] at hi
    omega

lemma fstsZ_mem (l : List (ℕ × (ℕ × ℕ × ℕ))) (x : ℕ)
    (hx : x ∈ l.map Prod.fst) : ((x : ℕ) : ℤ) ∈ fstsZ l := by
  rcases List.mem_map.mp hx with ⟨t, ht, rfl⟩
  exact List.mem_map_of_mem _ ht

lemma fstsZ_mem_rev (l : List (ℕ × (ℕ × ℕ × ℕ))) (x : ℤ)
    (hx : x ∈ fstsZ l) : ∃ t ∈ l, ((t.1 : ℕ) : ℤ) = x := by
  rcases List.mem_map.mp hx with ⟨t, ht, rfl⟩
  exact ⟨t, ht, rfl⟩

lemma chartInv_passBody (d0 mData : ℕ → ℕ) (w h : ℕ) (s : FillState)
    (hInv : ChartInv d0 mData w h s) :
    ChartInv d0 mData w h (passBody w h false s) := by
  set l := passTargets s.data w h s.todo with hl
  have hent0 : ∀ e ∈ s.todo, e = -1 ∨ 0 ≤ e := by
    intro e he
    rcases hInv.entries e he with h | ⟨p, _, rfl, _⟩
    · exact Or.inl h
    · exact Or.inr (Int.ofNat_nonneg _)
  have F1 : ∀ t ∈ l, ∃ p, p < w * h ∧ t.1 = 4 * p ∧
      mData (4 * p + 3) < 128 ∧ ((4 * p : ℕ) : ℤ) ∈ activeL s.todo := by
    intro t ht
    rcases (passTargets_mem s.data w h s.todo t).mp ht with ⟨e, he, hne, hfst, _⟩
    rcases hInv.entries e he with h | ⟨p, hp, rfl, hm⟩
    · exact absurd h hne
    · refine ⟨p, hp, ?_, hm, (activeL_mem _ _).mpr ⟨he, hne⟩⟩
      rw [hfst]
      rfl
  have F1' : ∀ t ∈ l, ∃ q, t.1 = 4 * q := by
    intro t ht
    rcases F1 t ht with ⟨p, _, hfst, _, _⟩
    exact ⟨p, hfst⟩
  have F2 : (l.map Prod.fst).Nodup :=
    passTargets_fsts_nodup s.data w h s.todo hInv.nodup hent0
  have F4 : (fstsZ l).Nodup := by
    have : fstsZ l = (l.map Prod.fst).map (fun n : ℕ => (n : ℤ)) := by
      rw [List.map_map]
      rfl
    rw [this]
    exact F2.map (fun a b hab => by omega)
  have F3 : ∀ x ∈ fstsZ l, x ∈ activeL s.todo := by
    intro x hx
    rcases fstsZ_mem_rev l x hx with ⟨t, ht, rfl⟩
    rcases F1 t ht with ⟨p, _, hfst, _, hact⟩
    rw [hfst]
    exact hact
  have hmem' : ∀ x, x ∈ activeL (markDone s.todo l) ↔
      x ∈ activeL s.todo ∧ x ∉ fstsZ l := by
    intro x
    rw [markDone_filter l s.todo]
    exact erase_foldl_mem _ _ hInv.nodup x
  rw [passBody_false, ← hl]
  refine ⟨?_, ?_, ?_, ?_, ?_, ?_, ?_, ?_⟩
  · intro e he
    rcases markDone_entries l s.todo e he with h | h
    · exact hInv.entries e h
    · exact Or.inl h
  · show (activeL (markDone s.todo l)).Nodup
    rw [markDone_filter l s.todo]
    exact erase_foldl_nodup _ _ hInv.nodup
  · intro e he
    rcases (hmem' e).mp he with ⟨hea, hnf⟩
    have het : e ∈ s.todo := ((activeL_mem _ _).mp hea).1
    have hene : e ≠ -1 := ((activeL_mem _ _).mp hea).2
    rcases hInv.entries e het with h | ⟨p, hp, rfl, hm⟩
    · exact absurd h hene
    · show commitWrites s.data l (((4 * p : ℕ) : ℤ).toNat + 3) = 0
      have htn : ((4 * p : ℕ) : ℤ).toNat = 4 * p := rfl
      rw [htn]
      rw [commitWrites_pixel_untouched l s.data p F1' ?hne 3 (by omega)]
      · have := hInv.activeAlpha _ hea
        rw [htn] at this
        exact this
      case hne =>
        intro t ht hteq
        apply hnf
        have : ((t.1 : ℕ) : ℤ) ∈ fstsZ l := List.mem_map_of_mem _ ht
        rw [hteq] at this
        exact this
  · intro p hp hm
    rcases hInv.holeStatus p hp hm with hin | h255
    · by_cases hc : ((4 * p : ℕ) : ℤ) ∈ fstsZ l
      · right
        rcases fstsZ_mem_rev l _ hc with ⟨t, ht, hteq⟩
        have htp : t.1 = 4 * p := by omega
        show commitWrites s.data l (4 * p + 3) = 255
        rw [← htp]
        rw [commitWrites_at l s.data t ht F1' F2 3 (by omega)]
        rfl
      · left
        exact (hmem' _).mpr ⟨hin, hc⟩
    · right
      show commitWrites s.data l (4 * p + 3) = 255
      rcases commitWrites_alpha l s.data p F1' with hsame | h
      · rw [hsame, h255]
      · exact h
  · intro p hp hm c hc
    show commitWrites s.data l (4 * p + c) = d0 (4 * p + c)
    rw [commitWrites_pixel_untouched l s.data p F1' ?hne2 c hc]
    · exact hInv.keepData p hp hm c hc
    case hne2 =>
      intro t ht hteq
      rcases F1 t ht with ⟨p', _, hfst, hm', _⟩
      have : p' = p := by omega
      subst this
      omega
  · show s.remaining - (l.length : ℤ) = ((activeL (markDone s.todo l)).length : ℤ)
    rw [markDone_filter l s.todo]
    have hlen := erase_foldl_length (fstsZ l) (activeL s.todo) hInv.nodup F4 F3
    have hfl : (fstsZ l).length = l.length := List.length_map _ _
    have hrem := hInv.remCount
    omega
  · intro i
    show bumpWrites s.writes l i ≤ 1
    rw [bumpWrites_at l s.writes i F2]
    by_cases hi : i ∈ l.map Prod.fst
    · rw [if_pos hi]
      have h0 : s.writes i = 0 := by
        by_contra hw
        have hpos : 0 < s.writes i := by omega
        exact hInv.wActive i hpos (F3 _ (fstsZ_mem l i hi))
      omega
    · rw [if_neg hi]
      have := hInv.wOnce i
      omega
  · intro i hi
    have hi' : 0 < bumpWrites s.writes l i := hi
    show ((i : ℕ) : ℤ) ∉ activeL (markDone s.todo l)
    rw [hmem']
    rintro ⟨ha, hnf⟩
    by_cases hmem : i ∈ l.map Prod.fst
    · exact hnf (fstsZ_mem l i hmem)
    · rw [bumpWrites_at l s.writes i F2, if_neg hmem] at hi'
      exact hInv.wActive i (by omega) ha

lemma chartInv_pass_irrel (d0 mData : ℕ → ℕ) (w h : ℕ) (s : FillState) (n : ℕ)
    (hInv : ChartInv d0 mData w h s) : ChartInv d0 mData w h { s with pass := n } :=
  ⟨hInv.entries, hInv.nodup, hInv.activeAlpha, hInv.holeStatus, hInv.keepData,
   hInv.remCount, hInv.wOnce, hInv.wActive⟩

lemma chartInv_runLoop (d0 mData : ℕ → ℕ) (w h : ℕ) :
    ∀ (fuel : ℕ) (s : FillState), ChartInv d0 mData w h s →
      ChartInv d0 mData w h (runLoop w h false fuel s) := by
  intro fuel
  induction fuel with
  | zero => intro s hInv; exact hInv
  | succ fuel ih =>
    intro s hInv
    rw [runLoop_succ]
    by_cases hrem : 0 < s.remaining
    · rw [if_pos hrem]
      by_cases hbr : false = false ∧ (passTargets s.data w h s.todo).length = 0
      · rw [if_pos hbr]
        exact chartInv_passBody d0 mData w h s hInv
      · rw [if_neg hbr]
        exact ih _ (chartInv_pass_irrel d0 mData w h _ _
          (chartInv_passBody d0 mData w h s hInv))
    · rw [if_neg hrem]
      exact hInv

/-
  The seam-heal (preserveContent = true) invariant: worklist entries stay
  hole indices and keep pixels are never written.
-/

structure HealInv (d0 mData : ℕ → ℕ) (w h : ℕ) (s : FillState) : Prop where
  entries : ∀ e ∈ s.todo, e = -1 ∨
    ∃ p, p < w * h ∧ e = ((4 * p : ℕ) : ℤ) ∧ mData (4 * p + 3) < 128
  keepData : ∀ p, p < w * h → 128 ≤ mData (4 * p + 3) →
    ∀ c, c < 4 → s.data (4 * p + c) = d0 (4 * p + c)

lemma healInv_initState (d0 mData : ℕ → ℕ) (w h : ℕ) :
    HealInv d0 mData w h (initState d0 mData w h true) := by
  have htodo : (initFill d0 mData w h true).2 = holeTodoList mData w h :=
    initFill_todo d0 mData w h true
  constructor
  · intro e he
    rw [show (initState d0 mData w h true).todo =
      holeTodoList mData w h from htodo] at he
    rcases (holeTodoList_mem mData w h e).mp he with ⟨p, hp, he', hm⟩
    exact Or.inr ⟨p, hp, he', hm⟩
  · intro p hp hm c hc
    exact initGo_data_true d0 mData (w * h) (4 * p + c)

lemma healInv_passBody (d0 mData : ℕ → ℕ) (w h : ℕ) (s : FillState)
    (hInv : HealInv d0 mData w h s) :
    HealInv d0 mData w h (passBody w h true s) := by
  set l := passTargets s.data w h s.todo with hl
  have F1 : ∀ t ∈ l, ∃ p, p < w * h ∧ t.1 = 4 * p ∧
      mData (4 * p + 3) < 128 := by
    intro t ht
    rcases (passTargets_mem s.data w h s.todo t).mp ht with ⟨e, he, hne, hfst, _⟩
    rcases hInv.entries e he with h | ⟨p, hp, rfl, hm⟩
    · exact absurd h hne
    · refine ⟨p, hp, ?_, hm⟩
      rw [hfst]
      rfl
  have F1' : ∀ t ∈ l, ∃ q, t.1 = 4 * q := by
    intro t ht
    rcases F1 t ht with ⟨p, _, hfst, _⟩
    exact ⟨p, hfst⟩
  rw [passBody_true, ← hl]
  constructor
  · intro e he
    exact hInv.entries e he
  · intro p hp hm c hc
    show commitWrites s.data l (4 * p + c) = d0 (4 * p + c)
    rw [commitWrites_pixel_untouched l s.data p F1' ?hne c hc]
    · exact hInv.keepData p hp hm c hc
    case hne =>
      intro t ht hteq
      rcases F1 t ht with ⟨p', _, hfst, hm'⟩
      have : p' = p := by omega
      subst this
      omega

lemma healInv_pass_irrel (d0 mData : ℕ → ℕ) (w h : ℕ) (s : FillState) (n : ℕ)
    (hInv : HealInv d0 mData w h s) : HealInv d0 mData w h { s with pass := n } :=
  ⟨hInv.entries, hInv.keepData⟩

lemma healInv_runLoop (d0 mData : ℕ → ℕ) (w h : ℕ) :
    ∀ (fuel : ℕ) (s : FillState), HealInv d0 mData w h s →
      HealInv d0 mData w h (runLoop w h true fuel s) := by
  intro fuel
  induction fuel with
  | zero => intro s hInv; exact hInv
  | succ fuel ih =>
    intro s hInv
    rw [runLoop_succ]
    by_cases hrem : 0 < s.remaining
    · rw [if_pos hrem, if_neg (by simp)]
      exact ih _ (healInv_pass_irrel d0 mData w h _ _
        (healInv_passBody d0 mData w h s hInv))
    · rw [if_neg hrem]
      exact hInv

/-- Keep pixels pass through sharpDiffusion untouched, in both fill modes. -/
lemma sharpDiffusion_keep (data mData : ℕ → ℕ) (w h mp : ℕ) (pc : Bool)
    (p : ℕ) (hp : p < w * h) (hk : 128 ≤ mData (4 * p + 3)) (c : ℕ)
    (hc : c < 4) :
    (sharpDiffusion data mData w h mp pc).data (4 * p + c) = data (4 * p + c) := by
  rw [sharpDiffusion_eq]
  cases pc with
  | false =>
    exact (chartInv_runLoop data mData w h mp _
      (chartInv_initState data mData w h)).keepData p hp hk c hc
  | true =>
    exact (healInv_runLoop data mData w h mp _
      (healInv_initState data mData w h)).keepData p hp hk c hc

/-
  The seam-heal loop keeps the whole worklist and runs all passes.
-/

lemma runLoop_true_run (w h : ℕ) :
    ∀ (fuel : ℕ) (s : FillState),
      (runLoop w h true fuel s).todo = s.todo ∧
      (runLoop w h true fuel s).remaining = s.remaining ∧
      (runLoop w h true fuel s).pass =
        (if 0 < s.remaining then s.pass + fuel else s.pass) := by
  intro fuel
  induction fuel with
  | zero =>
    intro s
    refine ⟨rfl, rfl, ?_⟩
    split <;> rfl
  | succ fuel ih =>
    intro s
    rw [runLoop_succ]
    by_cases hrem : 0 < s.remaining
    · rw [if_pos hrem, if_neg (by simp)]
      rcases ih { passBody w h true s with pass := (passBody w h true s).pass + 1 }
        with ⟨h1, h2, h3⟩
      have hb := passBody_true w h s
      have hbt : (passBody w h true s).todo = s.todo := by rw [hb]
      have hbr : (passBody w h true s).remaining = s.remaining := by rw [hb]
      have hbp : (passBody w h true s).pass = s.pass := by rw [hb]
      refine ⟨?_, ?_, ?_⟩
      · rw [h1]; exact hbt
      · rw [h2]; exact hbr
      · rw [h3]
        simp only [hbr, hbp, if_pos hrem]
        omega
    · rw [if_neg hrem, if_neg hrem]
      exact ⟨rfl, rfl, rfl⟩

/-
  Characterization of the texturizer.
-/

/-- Expected value of the texturizer after processing the first n pixels. -/
def texExpected (orig smooth mData : ℕ → ℕ) (rand : ℕ → ℚ) (n : ℕ) : ℕ → ℕ :=
  fun j =>
    if j / 4 < n ∧ mData (4 * (j / 4) + 3) < 128 then
      (if j % 4 = 3 then 255
       else texVal smooth (noiseAt mData rand (j / 4)) j)
    else orig j

lemma holeCountBefore_succ (mData : ℕ → ℕ) (n : ℕ) :
    holeCountBefore mData (n + 1) =
      holeCountBefore mData n + (if mData (4 * n + 3) < 128 then 1 else 0) := by
  unfold holeCountBefore
  rw [List.range_succ, List.filter_append, List.length_append]
  by_cases hm : mData (4 * n + 3) < 128 <;> simp [hm]

lemma texWrite_at_idx (d smooth : ℕ → ℕ) (noise : ℚ) (p c : ℕ) (hc : c < 3) :
    texWrite d smooth noise (4 * p) (4 * p + c) = texVal smooth noise (4 * p + c) := by
  unfold texWrite
  interval_cases c
  · rw [Function.update_noteq (by omega), Function.update_noteq (by omega),
      Function.update_noteq (by omega)]
    have : 4 * p + 0 = 4 * p := by omega
    rw [this, Function.update_same]
  · rw [Function.update_noteq (by omega), Function.update_noteq (by omega),
      Function.update_same]
  · rw [Function.update_noteq (by omega), Function.update_same]

lemma texWrite_at_alpha (d smooth : ℕ → ℕ) (noise : ℚ) (p : ℕ) :
    texWrite d smooth noise (4 * p) (4 * p + 3) = 255 := by
  unfold texWrite
  rw [Function.update_same]

lemma texWrite_miss (d smooth : ℕ → ℕ) (noise : ℚ) (p j : ℕ) (hj : j / 4 ≠ p) :
    texWrite d smooth noise (4 * p) j = d j := by
  unfold texWrite
  rw [Function.update_noteq (by omega), Function.update_noteq (by omega),
    Function.update_noteq (by omega), Function.update_noteq (by omega)]

lemma texGo_succ (orig smooth mData : ℕ → ℕ) (rand : ℕ → ℚ) (n : ℕ) :
    texGo orig smooth mData rand (n + 1) =
      texStep mData smooth rand (texGo orig smooth mData rand n) n := by
  unfold texGo
  rw [List.range_succ, List.foldl_append]
  rfl

lemma texGo_spec (orig smooth mData : ℕ → ℕ) (rand : ℕ → ℚ) (n : ℕ) :
    (texGo orig smooth mData rand n).2 = holeCountBefore mData n ∧
    ∀ j, (texGo orig smooth mData rand n).1 j =
      texExpected orig smooth mData rand n j := by
  induction n with
  | zero =>
    constructor
    · rfl
    · intro j
      unfold texExpected
      rw [if_neg (by rintro ⟨h, _⟩; omega)]
      rfl
  | succ n ih =>
    rcases ih with ⟨ihc, ihd⟩
    rw [texGo_succ]
    unfold texStep
    by_cases hm : mData (4 * n + 3) < 128
    · rw [if_pos hm]
      constructor
      · show (texGo orig smooth mData rand n).2 + 1 = _
        rw [ihc, holeCountBefore_succ, if_pos hm]
      · intro j
        show texWrite (texGo orig smooth mData rand n).1 smooth
          ((rand (texGo orig smooth mData rand n).2 - 1 / 2) * 12) (4 * n) j = _
        rw [ihc]
        by_cases hj : j / 4 = n
        · have hjr : j = 4 * n + j % 4 := by omega
          by_cases h3 : j % 4 = 3
          · rw [hjr, h3, texWrite_at_alpha]
            unfold texExpected
            rw [show (4 * n + 3) / 4 = n by omega]
            rw [if_pos ⟨by omega, hm⟩, if_pos (by omega)]
          · have hc3 : j % 4 < 3 := by omega
            rw [hjr, texWrite_at_idx _ _ _ _ _ hc3]
            unfold texExpected noiseAt
            rw [show (4 * n + j % 4) / 4 = n by omega]
            rw [if_pos ⟨by omega, hm⟩, if_neg (by omega)]
        · rw [texWrite_miss _ _ _ _ _ hj, ihd j]
          unfold texExpected
          have hiff : (j / 4 < n ∧ mData (4 * (j / 4) + 3) < 128) ↔
              (j / 4 < n + 1 ∧ mData (4 * (j / 4) + 3) < 128) := by
            constructor
            · rintro ⟨h1, h2⟩; exact ⟨by omega, h2⟩
            · rintro ⟨h1, h2⟩; exact ⟨by omega, h2⟩
          rw [if_congr hiff rfl rfl]
    · rw [if_neg hm]
      constructor
      · rw [ihc, holeCountBefore_succ, if_neg hm]
        omega
      · intro j
        rw [ihd j]
        unfold texExpected
        have hiff : (j / 4 < n ∧ mData (4 * (j / 4) + 3) < 128) ↔
            (j / 4 < n + 1 ∧ mData (4 * (j / 4) + 3) < 128) := by
          constructor
          · rintro ⟨h1, h2⟩; exact ⟨by omega, h2⟩
          · rintro ⟨h1, h2⟩
            refine ⟨?_, h2⟩
            rcases Nat.lt_or_ge (j / 4) n with hlt | hge
            · exact hlt
            · exfalso
              have heq : j / 4 = n := by omega
              rw [heq] at h2
              exact hm h2
        rw [if_congr hiff rfl rfl]

lemma texturize_keep (orig smooth mData : ℕ → ℕ) (w h : ℕ) (rand : ℕ → ℚ)
    (p : ℕ) (hp : p < w * h) (hk : 128 ≤ mData (4 * p + 3)) (c : ℕ) (hc : c < 4) :
    texturize orig smooth mData w h rand (4 * p + c) = orig (4 * p + c) := by
  unfold texturize
  rw [(texGo_spec orig smooth mData rand (w * h)).2]
  unfold texExpected
  rw [if_neg]
  rintro ⟨_, hm⟩
  rw [show 4 * ((4 * p + c) / 4) + 3 = 4 * p + 3 by omega] at hm
  omega

lemma texturize_hole_alpha (orig smooth mData : ℕ → ℕ) (w h : ℕ) (rand : ℕ → ℚ)
    (p : ℕ) (hp : p < w * h) (hm : mData (4 * p + 3) < 128) :
    texturize orig smooth mData w h rand (4 * p + 3) = 255 := by
  unfold texturize
  rw [(texGo_spec orig smooth mData rand (w * h)).2]
  unfold texExpected
  rw [if_pos ⟨by omega, by rw [show 4 * ((4 * p + 3) / 4) + 3 = 4 * p + 3 by omega]; exact hm⟩]
  rw [if_pos (by omega)]

lemma texturize_hole_rgb (orig smooth mData : ℕ → ℕ) (w h : ℕ) (rand : ℕ → ℚ)
    (p : ℕ) (hp : p < w * h) (hm : mData (4 * p + 3) < 128) (c : ℕ) (hc : c < 3) :
    texturize orig smooth mData w h rand (4 * p + c) =
      texVal smooth (noiseAt mData rand p) (4 * p + c) := by
  unfold texturize
  rw [(texGo_spec orig smooth mData rand (w * h)).2]
  unfold texExpected
  rw [show (4 * p + c) / 4 = p by omega]
  rw [if_pos ⟨by omega, hm⟩, if_neg (by omega)]

/-
  Arithmetic of the texturizer's clamped rounding.
-/

lemma jsClamp_noise_bound (s : ℕ) (hs : s ≤ 255) (noise : ℚ)
    (hlo : -6 ≤ noise) (hhi : noise < 6) :
    |(jsUint8Clamp (max 0 (min 255 ((s : ℚ) + noise))) : ℤ) - (s : ℤ)| ≤ 6 := by
  set v : ℚ := (s : ℚ) + noise with hv
  set u : ℚ := max 0 (min 255 v) with hu
  have hu0 : (0 : ℚ) ≤ u := le_max_left 0 _
  unfold jsUint8Clamp
  split_ifs with h1 h2 h3 h4 h5
  · -- clamped to 0
    have hm : min 255 v ≤ 0 := le_trans (le_max_right 0 _) h1
    have hvle : v ≤ 0 := by
      rcases min_le_iff.mp hm with h | h
      · norm_num at h
      · exact h
    have hsle : (s : ℚ) ≤ 6 := by
      rw [hv] at hvle
      linarith
    have hs6 : s ≤ 6 := by exact_mod_cast hsle
    rw [abs_le]
    constructor <;> push_cast <;> omega
  · -- clamped to 255
    have hm : (255 : ℚ) ≤ min 255 v := by
      rcases le_max_iff.mp h2 with h | h
      · norm_num at h
      · exact h
    have hvge : (255 : ℚ) ≤ v := (le_min_iff.mp hm).2
    have hsgt : (249 : ℚ) < (s : ℚ) := by
      rw [hv] at hvge
      linarith
    have hs249 : 249 < s := by exact_mod_cast hsgt
    rw [abs_le]
    constructor <;> push_cast <;> omega
  all_goals {
    have hu0' : (0 : ℚ) < u := lt_of_not_le h1
    have hu255 : u < 255 := lt_of_not_le h2
    have hm0 : (0 : ℚ) < min 255 v := by
      rcases lt_max_iff.mp hu0' with h | h
      · norm_num at h
      · exact h
    have humin : u = min 255 v := max_eq_right (le_of_lt hm0)
    have hv255 : v < 255 := by
      rcases min_lt_iff.mp (humin ▸ hu255) with h | h
      · norm_num at h
      · exact h
    have huv : u = v := by
      rw [humin]
      exact min_eq_right (le_of_lt hv255)
    have hf0 : 0 ≤ ⌊u⌋ := Int.floor_nonneg.mpr hu0
    have hfl : ((⌊u⌋ : ℤ) : ℚ) ≤ u := Int.floor_le u
    have hfu : u < ⌊u⌋ + 1 := Int.lt_floor_add_one u
    have hulow : (s : ℚ) - 6 ≤ u := by rw [huv, hv]; linarith
    have huhigh : u < (s : ℚ) + 6 := by rw [huv, hv]; linarith
    have hflb : (s : ℤ) - 6 ≤ ⌊u⌋ := by
      have hq : ((s : ℤ) : ℚ) - 6 < (⌊u⌋ : ℚ) + 1 := by
        push_cast
        linarith
      have : (s : ℤ) - 6 < ⌊u⌋ + 1 := by exact_mod_cast hq
      omega
    have hfub : ⌊u⌋ ≤ (s : ℤ) + 5 := by
      have hq : (⌊u⌋ : ℚ) < ((s : ℤ) : ℚ) + 6 := by
        push_cast
        linarith
      have : ⌊u⌋ < (s : ℤ) + 6 := by exact_mod_cast hq
      omega
    first
    | (rw [abs_le]
       rw [Int.toNat_of_nonneg hf0]
       constructor <;> omega)
    | (rw [abs_le]
       rw [Int.toNat_of_nonneg (by omega : (0 : ℤ) ≤ ⌊u⌋ + 1)]
       constructor <;> omega)
  }

lemma jsUint8Clamp_of_bounds (q : ℚ) (h0 : 0 ≤ q) (h255 : q ≤ 255) :
    (jsUint8Clamp q : ℤ) =
      if Int.fract q < 1 / 2 then ⌊q⌋
      else if 1 / 2 < Int.fract q then ⌊q⌋ + 1
      else if ⌊q⌋ % 2 = 0 then ⌊q⌋ else ⌊q⌋ + 1 := by
  have hF : Int.fract q = q - ⌊q⌋ := (Int.self_sub_floor q).symm
  have hfnn : 0 ≤ ⌊q⌋ := Int.floor_nonneg.mpr h0
  unfold jsUint8Clamp
  by_cases hA : Int.fract q < 1 / 2
  · rw [if_pos hA]
    by_cases hz : q ≤ 0
    · have hq0 : q = 0 := le_antisymm hz h0
      rw [if_pos hz, hq0]
      norm_num
    · rw [if_neg hz]
      by_cases ht : (255 : ℚ) ≤ q
      · have hqt : q = 255 := le_antisymm h255 ht
        rw [if_pos ht, hqt]
        norm_num
      · rw [if_neg ht, if_pos (by rw [← hF]; exact hA),
          Int.toNat_of_nonneg hfnn]
  · rw [if_neg hA]
    have hfr0 : (0 : ℚ) < Int.fract q := by
      rcases lt_or_eq_of_le (Int.fract_nonneg q) with h | h
      · exact h
      · exfalso; apply hA; rw [← h]; norm_num
    have hz : ¬ q ≤ 0 := by
      intro hzq
      have hq0 : q = 0 := le_antisymm hzq h0
      rw [hq0] at hfr0
      simp [Int.fract_zero] at hfr0
    have ht : ¬ (255 : ℚ) ≤ q := by
      intro htq
      have hqt : q = 255 := le_antisymm h255 htq
      rw [hqt] at hfr0
      norm_num [Int.fract_intCast] at hfr0
    rw [if_neg hz, if_neg ht, if_neg (by rw [← hF]; exact hA)]
    by_cases hB : 1 / 2 < Int.fract q
    · rw [if_pos hB, if_pos (by rw [← hF]; exact hB),
        Int.toNat_of_nonneg (by omega)]
    · rw [if_neg hB, if_neg (by rw [← hF]; exact hB)]
      by_cases hpar : ⌊q⌋ % 2 = 0
      · rw [if_pos hpar, if_pos hpar, Int.toNat_of_nonneg hfnn]
      · rw [if_neg hpar, if_neg hpar, Int.toNat_of_nonneg (by omega)]

lemma jsClamp_offset (s : ℕ) (noise : ℚ) (h0 : 0 ≤ (s : ℚ) + noise)
    (h255 : (s : ℚ) + noise ≤ 255) (htie : Int.fract noise ≠ 1 / 2) :
    (jsUint8Clamp (max 0 (min 255 ((s : ℚ) + noise))) : ℤ) - (s : ℤ) =
      if Int.fract noise < 1 / 2 then ⌊noise⌋ else ⌊noise⌋ + 1 := by
  have hclamp : max 0 (min 255 ((s : ℚ) + noise)) = (s : ℚ) + noise := by
    rw [min_eq_right h255, max_eq_right h0]
  rw [hclamp]
  set v : ℚ := (s : ℚ) + noise with hv
  have hvz : v = noise + ((s : ℤ) : ℚ) := by rw [hv]; push_cast; ring
  have hfv : ⌊v⌋ = ⌊noise⌋ + (s : ℤ) := by rw [hvz, Int.floor_add_int]
  have hfrv : Int.fract v = Int.fract noise := by rw [hvz, Int.fract_add_int]
  rw [jsUint8Clamp_of_bounds v h0 h255, hfrv, hfv]
  by_cases hA : Int.fract noise < 1 / 2
  · rw [if_pos hA, if_pos hA]
    ring
  · rw [if_neg hA, if_neg hA]
    by_cases hB : 1 / 2 < Int.fract noise
    · rw [if_pos hB]
      ring
    · exact absurd (le_antisymm (not_lt.mp hB) (not_lt.mp hA)) htie

/-
  The all-hole degenerate case: the first pass commits nothing and the loop
  exits with the pass counter still 0 and every alpha still cleared.
-/

lemma allHole_init_alpha (data mData : ℕ → ℕ) (w h : ℕ)
    (hall : ∀ p, p < w * h → mData (4 * p + 3) < 128) (p : ℕ) (hp : p < w * h) :
    (initState data mData w h false).data (4 * p + 3) = 0 := by
  show (initGo data mData false (w * h)).1 (4 * p + 3) = 0
  rw [initGo_data_false]
  rw [if_pos ⟨by omega, by omega, by
    rw [show 4 * p + 3 = 4 * p + 3 from rfl]; exact hall p hp⟩]

lemma allHole_targets_nil (data mData : ℕ → ℕ) (w h : ℕ)
    (hall : ∀ p, p < w * h → mData (4 * p + 3) < 128) :
    passTargets (initState data mData w h false).data w h
      (initState data mData w h false).todo = [] := by
  unfold passTargets
  rw [List.filterMap_eq_nil]
  intro e he
  have htodo : (initState data mData w h false).todo = holeTodoList mData w h :=
    initFill_todo data mData w h false
  rw [htodo] at he
  rcases (holeTodoList_mem mData w h e).mp he with ⟨p, hp, rfl, hm⟩
  rw [if_neg (by omega : ¬ ((4 * p : ℕ) : ℤ) = -1)]
  have htn : ((4 * p : ℕ) : ℤ).toNat = 4 * p := rfl
  rw [htn]
  have hav : avgColor (initState data mData w h false).data w h
      ((4 * p / 4 % w : ℕ) : ℤ) ((4 * p / 4 / w : ℕ) : ℤ) = none := by
    apply avgColor_none
    intro q hq hin
    rw [pixIdx_eq]
    exact allHole_init_alpha data mData w h hall (pOf w q) (pOf_lt w h q hin)
  rw [hav]

lemma allHole_run (data mData : ℕ → ℕ) (w h mp : ℕ)
    (hall : ∀ p, p < w * h → mData (4 * p + 3) < 128) :
    (sharpDiffusion data mData w h mp false).data =
      (initState data mData w h false).data ∧
    (sharpDiffusion data mData w h mp false).pass = 0 := by
  rw [sharpDiffusion_eq]
  cases mp with
  | zero => exact ⟨rfl, rfl⟩
  | succ fuel =>
    rw [runLoop_succ]
    by_cases hrem : 0 < (initState data mData w h false).remaining
    · rw [if_pos hrem,
        if_pos ⟨rfl, by rw [allHole_targets_nil data mData w h hall]; rfl⟩]
      rw [passBody_false]
      rw [allHole_targets_nil data mData w h hall]
      exact ⟨by rw [commitWrites_nil], rfl⟩
    · rw [if_neg hrem]
      exact ⟨rfl, rfl⟩

/-
  Two runs over the same mask whose buffers agree on keep pixels stay in
  lock-step: alpha channels agree everywhere, and all channels agree at any
  pixel whose alpha is positive.
-/

/-- Byte-buffer relation: alpha bytes agree on every pixel, and all four
bytes agree on pixels whose alpha is positive. -/
def DataRel (w h : ℕ) (d1 d2 : ℕ → ℕ) : Prop :=
  ∀ p, p < w * h → d1 (4 * p + 3) = d2 (4 * p + 3) ∧
    (0 < d1 (4 * p + 3) → ∀ c, c < 4 → d1 (4 * p + c) = d2 (4 * p + c))

lemma nstep_congr (d1 d2 : ℕ → ℕ) (w h : ℕ) (hrel : DataRel w h d1 d2)
    (acc : NSum) (q : ℤ × ℤ) : nstep d1 w h acc q = nstep d2 w h acc q := by
  unfold nstep
  by_cases hin : inBounds w h q
  · rw [if_pos hin, if_pos hin]
    have hpq : pOf w q < w * h := pOf_lt w h q hin
    have hpe : pixIdx w q = 4 * pOf w q := pixIdx_eq w q
    rcases hrel (pOf w q) hpq with ⟨ha, hr⟩
    rw [hpe, ha]
    by_cases hpos : 0 < d2 (4 * pOf w q + 3)
    · rw [if_pos hpos, if_pos hpos]
      have hp1 : 0 < d1 (4 * pOf w q + 3) := by rw [ha]; exact hpos
      have h00 : d1 (4 * pOf w q) = d2 (4 * pOf w q) := by
        have := hr hp1 0 (by omega)
        rwa [Nat.add_zero] at this
      have h01 := hr hp1 1 (by omega)
      have h02 := hr hp1 2 (by omega)
      rw [h00, h01, h02]
    · rw [if_neg hpos, if_neg hpos]
  · rw [if_neg hin, if_neg hin]

lemma avgColor_congr (d1 d2 : ℕ → ℕ) (w h : ℕ) (hrel : DataRel w h d1 d2)
    (x y : ℤ) : avgColor d1 w h x y = avgColor d2 w h x y := by
  have hns : neighborSum d1 w h x y = neighborSum d2 w h x y := by
    unfold neighborSum
    have hstep : nstep d1 w h = nstep d2 w h :=
      funext fun acc => funext fun q => nstep_congr d1 d2 w h hrel acc q
    rw [hstep]
  unfold avgColor
  rw [hns]

lemma passTargets_congr (d1 d2 : ℕ → ℕ) (w h : ℕ) (hrel : DataRel w h d1 d2)
    (todo : List ℤ) : passTargets d1 w h todo = passTargets d2 w h todo := by
  unfold passTargets
  congr 1
  funext e
  rw [avgColor_congr d1 d2 w h hrel]

/-- Lock-step relation between the two runs' loop states. -/
structure TwinRel (w h : ℕ) (s1 s2 : FillState) : Prop where
  todoEq : s1.todo = s2.todo
  remEq : s1.remaining = s2.remaining
  passEq : s1.pass = s2.pass
  dataRel : DataRel w h s1.data s2.data

lemma twin_passBody (d0 mData : ℕ → ℕ) (w h : ℕ) (s1 s2 : FillState)
    (hInv : ChartInv d0 mData w h s1) (htw : TwinRel w h s1 s2) :
    TwinRel w h (passBody w h false s1) (passBody w h false s2) := by
  have hll : passTargets s2.data w h s2.todo = passTargets s1.data w h s1.todo := by
    rw [← htw.todoEq, passTargets_congr s1.data s2.data w h htw.dataRel]
  set l := passTargets s1.data w h s1.todo with hl
  have F1' : ∀ t ∈ l, ∃ q, t.1 = 4 * q := by
    intro t ht
    rcases (passTargets_mem s1.data w h s1.todo t).mp ht with ⟨e, he, hne, hfst, _⟩
    rcases hInv.entries e he with h | ⟨p, hp, rfl, hm⟩
    · exact absurd h hne
    · exact ⟨p, by rw [hfst]; rfl⟩
  have hent0 : ∀ e ∈ s1.todo, e = -1 ∨ 0 ≤ e := by
    intro e he
    rcases hInv.entries e he with h | ⟨p, _, rfl, _⟩
    · exact Or.inl h
    · exact Or.inr (Int.ofNat_nonneg _)
  have F2 : (l.map Prod.fst).Nodup :=
    passTargets_fsts_nodup s1.data w h s1.todo hInv.nodup hent0
  have hd1 : (passBody w h false s1).data = commitWrites s1.data l := rfl
  have hd2 : (passBody w h false s2).data = commitWrites s2.data l := by
    show commitWrites s2.data (passTargets s2.data w h s2.todo) = _
    rw [hll]
  refine ⟨?_, ?_, ?_, ?_⟩
  · show markDone s1.todo l =
      markDone s2.todo (passTargets s2.data w h s2.todo)
    rw [hll, htw.todoEq]
  · show s1.remaining - (l.length : ℤ) =
      s2.remaining - ((passTargets s2.data w h s2.todo).length : ℤ)
    rw [hll, htw.remEq]
  · exact htw.passEq
  · rw [hd1, hd2]
    intro p hp
    by_cases hc : ∃ t ∈ l, t.1 = 4 * p
    · rcases hc with ⟨t, ht, htp⟩
      have h1 : ∀ c, c < 4 → commitWrites s1.data l (4 * p + c) = chanVal t c := by
        intro c hc'
        rw [← htp]
        exact commitWrites_at l s1.data t ht F1' F2 c hc'
      have h2 : ∀ c, c < 4 → commitWrites s2.data l (4 * p + c) = chanVal t c := by
        intro c hc'
        rw [← htp]
        exact commitWrites_at l s2.data t ht F1' F2 c hc'
      constructor
      · rw [h1 3 (by omega), h2 3 (by omega)]
      · intro _ c hc'
        rw [h1 c hc', h2 c hc']
    · have hne : ∀ t ∈ l, t.1 ≠ 4 * p := by
        intro t ht hteq
        exact hc ⟨t, ht, hteq⟩
      have h1 : ∀ c, c < 4 →
          commitWrites s1.data l (4 * p + c) = s1.data (4 * p + c) :=
        fun c hc' => commitWrites_pixel_untouched l s1.data p F1' hne c hc'
      have h2 : ∀ c, c < 4 →
          commitWrites s2.data l (4 * p + c) = s2.data (4 * p + c) :=
        fun c hc' => commitWrites_pixel_untouched l s2.data p F1' hne c hc'
      rcases htw.dataRel p hp with ⟨ha, hr⟩
      constructor
      · rw [h1 3 (by omega), h2 3 (by omega), ha]
      · intro hpos c hc'
        rw [h1 3 (by omega)] at hpos
        rw [h1 c hc', h2 c hc']
        exact hr hpos c hc'

lemma twin_runLoop (d0 mData : ℕ → ℕ) (w h : ℕ) :
    ∀ (fuel : ℕ) (s1 s2 : FillState), ChartInv d0 mData w h s1 →
      TwinRel w h s1 s2 →
      TwinRel w h (runLoop w h false fuel s1) (runLoop w h false fuel s2) := by
  intro fuel
  induction fuel with
  | zero => intro s1 s2 _ htw; exact htw
  | succ fuel ih =>
    intro s1 s2 hInv htw
    rw [runLoop_succ, runLoop_succ]
    have hll : passTargets s2.data w h s2.todo = passTargets s1.data w h s1.todo := by
      rw [← htw.todoEq, passTargets_congr s1.data s2.data w h htw.dataRel]
    by_cases hrem : 0 < s1.remaining
    · have hrem2 : 0 < s2.remaining := by rw [← htw.remEq]; exact hrem
      by_cases hbr : false = false ∧ (passTargets s1.data w h s1.todo).length = 0
      · have hbr2 : false = false ∧ (passTargets s2.data w h s2.todo).length = 0 := by
          rw [hll]; exact hbr
        rw [if_pos hrem, if_pos hrem2, if_pos hbr, if_pos hbr2]
        exact twin_passBody d0 mData w h s1 s2 hInv htw
      · have hbr2 : ¬ (false = false ∧
            (passTargets s2.data w h s2.todo).length = 0) := by
          rw [hll]; exact hbr
        rw [if_pos hrem, if_pos hrem2, if_neg hbr, if_neg hbr2]
        have htw' := twin_passBody d0 mData w h s1 s2 hInv htw
        have hInv' := chartInv_pass_irrel d0 mData w h (passBody w h false s1)
          ((passBody w h false s1).pass + 1)
          (chartInv_passBody d0 mData w h s1 hInv)
        refine ih _ _ hInv' ⟨htw'.todoEq, htw'.remEq, ?_, htw'.dataRel⟩
        show (passBody w h false s1).pass + 1 = (passBody w h false s2).pass + 1
        rw [htw'.passEq]
    · have hrem2 : ¬ 0 < s2.remaining := by rw [← htw.remEq]; exact hrem
      rw [if_neg hrem, if_neg hrem2]
      exact htw

lemma twin_initState (d1 d2 mData : ℕ → ℕ) (w h : ℕ)
    (hagree : ∀ p, p < w * h → 128 ≤ mData (4 * p + 3) →
      ∀ c, c < 4 → d1 (4 * p + c) = d2 (4 * p + c)) :
    TwinRel w h (initState d1 mData w h false) (initState d2 mData w h false) := by
  have ht1 : (initFill d1 mData w h false).2 = holeTodoList mData w h :=
    initFill_todo d1 mData w h false
  have ht2 : (initFill d2 mData w h false).2 = holeTodoList mData w h :=
    initFill_todo d2 mData w h false
  refine ⟨?_, ?_, rfl, ?_⟩
  · show (initFill d1 mData w h false).2 = (initFill d2 mData w h false).2
    rw [ht1, ht2]
  · show ((initFill d1 mData w h false).2.length : ℤ) =
      ((initFill d2 mData w h false).2.length : ℤ)
    rw [ht1, ht2]
  · intro p hp
    have h1 : ∀ c, c < 4 → (initState d1 mData w h false).data (4 * p + c) =
        if c = 3 ∧ mData (4 * p + 3) < 128 then 0 else d1 (4 * p + c) := by
      intro c hc
      show (initGo d1 mData false (w * h)).1 (4 * p + c) = _
      rw [initGo_data_false]
      by_cases hc3 : c = 3
      · subst hc3
        by_cases hm : mData (4 * p + 3) < 128
        · rw [if_pos ⟨by omega, by omega, hm⟩, if_pos ⟨rfl, hm⟩]
        · rw [if_neg (by rintro ⟨_, _, hmm⟩; exact hm hmm),
            if_neg (by rintro ⟨_, hmm⟩; exact hm hmm)]
      · rw [if_neg (by rintro ⟨h3, _, _⟩; omega),
          if_neg (by rintro ⟨h3, _⟩; exact hc3 h3)]
    have h2 : ∀ c, c < 4 → (initState d2 mData w h false).data (4 * p + c) =
        if c = 3 ∧ mData (4 * p + 3) < 128 then 0 else d2 (4 * p + c) := by
      intro c hc
      show (initGo d2 mData false (w * h)).1 (4 * p + c) = _
      rw [initGo_data_false]
      by_cases hc3 : c = 3
      · subst hc3
        by_cases hm : mData (4 * p + 3) < 128
        · rw [if_pos ⟨by omega, by omega, hm⟩, if_pos ⟨rfl, hm⟩]
        · rw [if_neg (by rintro ⟨_, _, hmm⟩; exact hm hmm),
            if_neg (by rintro ⟨_, hmm⟩; exact hm hmm)]
      · rw [if_neg (by rintro ⟨h3, _, _⟩; omega),
          if_neg (by rintro ⟨h3, _⟩; exact hc3 h3)]
    by_cases hm : mData (4 * p + 3) < 128
    · constructor
      · rw [h1 3 (by omega), h2 3 (by omega), if_pos ⟨rfl, hm⟩, if_pos ⟨rfl, hm⟩]
      · intro hpos
        rw [h1 3 (by omega), if_pos ⟨rfl, hm⟩] at hpos
        omega
    · have hk : 128 ≤ mData (4 * p + 3) := by omega
      constructor
      · rw [h1 3 (by omega), h2 3 (by omega), if_neg (by tauto), if_neg (by tauto)]
        exact hagree p hp hk 3 (by omega)
      · intro _ c hc
        rw [h1 c hc, h2 c hc]
        by_cases hc3 : c = 3 <;>
          [skip; rw [if_neg (by tauto), if_neg (by tauto)]]
        · subst hc3
          rw [if_neg (by tauto), if_neg (by tauto)]
          exact hagree p hp hk 3 (by omega)
        · exact hagree p hp hk c hc

/-
  Reachability: a hole pixel is fillable within n passes when a chain of
  neighbouring pixels of length at most n connects it to a keep pixel.
-/

/-- Pixels fillable within n passes: keep pixels at level 0, and hole pixels
with a level-n neighbour at level n+1. -/
def Rreach (mData : ℕ → ℕ) (w h : ℕ) : ℕ → ℤ × ℤ → Prop
  | 0, q => inBounds w h q ∧ 128 ≤ mData (pixIdx w q + 3)
  | n + 1, q => Rreach mData w h n q ∨
      (inBounds w h q ∧ mData (pixIdx w q + 3) < 128 ∧
        ∃ r, adj8 q r ∧ Rreach mData w h n r)

lemma Rreach_inBounds (mData : ℕ → ℕ) (w h : ℕ) :
    ∀ (n : ℕ) (q : ℤ × ℤ), Rreach mData w h n q → inBounds w h q := by
  intro n
  induction n with
  | zero => intro q hq; exact hq.1
  | succ n ih =>
    intro q hq
    rcases hq with hq | ⟨hin, _, _⟩
    · exact ih q hq
    · exact hin

lemma Rreach_of_keep (mData : ℕ → ℕ) (w h : ℕ) (n : ℕ) (q : ℤ × ℤ)
    (hin : inBounds w h q) (hk : 128 ≤ mData (pixIdx w q + 3)) :
    Rreach mData w h n q := by
  induction n with
  | zero => exact ⟨hin, hk⟩
  | succ n ih => exact Or.inl ih

lemma Rreach_mono (mData : ℕ → ℕ) (w h : ℕ) :
    ∀ (n m : ℕ), m ≤ n → ∀ q, Rreach mData w h m q → Rreach mData w h n q := by
  intro n
  induction n with
  | zero =>
    intro m hm q hq
    have : m = 0 := by omega
    subst this
    exact hq
  | succ n ih =>
    intro m hm q hq
    by_cases hm' : m = n + 1
    · subst hm'; exact hq
    · exact Or.inl (ih m (by omega) q hq)

/-- Chebyshev distance between two grid points. -/
def cheb (a b : ℤ × ℤ) : ℕ := max (a.1 - b.1).natAbs (a.2 - b.2).natAbs

/-- One grid step from a towards b (each coordinate moves by at most 1). -/
def stepToward (a b : ℤ × ℤ) : ℤ × ℤ :=
  ((if a.1 < b.1 then a.1 + 1 else if b.1 < a.1 then a.1 - 1 else a.1),
   (if a.2 < b.2 then a.2 + 1 else if b.2 < a.2 then a.2 - 1 else a.2))

lemma stepToward_adj (a b : ℤ × ℤ) (hne : a ≠ b) : adj8 a (stepToward a b) := by
  have hne' : ¬ (a.1 = b.1 ∧ a.2 = b.2) := by
    rintro ⟨h1, h2⟩
    exact hne (Prod.ext h1 h2)
  unfold adj8 neighborList stepToward
  simp only [List.mem_cons, List.not_mem_nil, or_false, Prod.mk.injEq]
  split_ifs <;> omega

lemma stepToward_inBounds (w h : ℕ) (a b : ℤ × ℤ) (ha : inBounds w h a)
    (hb : inBounds w h b) : inBounds w h (stepToward a b) := by
  unfold inBounds at ha hb
  unfold inBounds stepToward
  dsimp only
  rcases ha with ⟨ha1, ha2, ha3, ha4⟩
  rcases hb with ⟨hb1, hb2, hb3, hb4⟩
  split_ifs <;> refine ⟨by omega, by omega, by omega, by omega⟩

lemma cheb_step (a b : ℤ × ℤ) (hne : a ≠ b) :
    cheb (stepToward a b) b < cheb a b := by
  have hne' : ¬ (a.1 = b.1 ∧ a.2 = b.2) := by
    rintro ⟨h1, h2⟩
    exact hne (Prod.ext h1 h2)
  unfold cheb stepToward
  dsimp only
  split_ifs <;> omega

lemma cheb_eq_zero (a b : ℤ × ℤ) (hc : cheb a b = 0) : a = b := by
  unfold cheb at hc
  have h1 : a.1 = b.1 := by omega
  have h2 : a.2 = b.2 := by omega
  exact Prod.ext h1 h2

lemma cheb_lt_max (w h : ℕ) (a b : ℤ × ℤ) (ha : inBounds w h a)
    (hb : inBounds w h b) : cheb a b < max w h := by
  rcases ha with ⟨ha1, ha2, ha3, ha4⟩
  rcases hb with ⟨hb1, hb2, hb3, hb4⟩
  unfold cheb
  omega

lemma reachOfCheb (mData : ℕ → ℕ) (w h : ℕ) (k : ℤ × ℤ) (hk : inBounds w h k)
    (hkeep : 128 ≤ mData (pixIdx w k + 3)) :
    ∀ (n : ℕ) (q : ℤ × ℤ), inBounds w h q → cheb q k ≤ n →
      Rreach mData w h n q := by
  intro n
  induction n with
  | zero =>
    intro q hq hc
    have : q = k := cheb_eq_zero q k (by omega)
    subst this
    exact ⟨hq, hkeep⟩
  | succ n ih =>
    intro q hq hc
    by_cases hkq : 128 ≤ mData (pixIdx w q + 3)
    · exact Rreach_of_keep mData w h (n + 1) q hq hkq
    · by_cases hqk : q = k
      · subst hqk; exact absurd hkeep hkq
      · refine Or.inr ⟨hq, by omega, stepToward q k, stepToward_adj q k hqk, ?_⟩
        apply ih (stepToward q k) (stepToward_inBounds w h q k hq hk)
        have := cheb_step q k hqk
        omega

/-- A live hole pixel with a valid in-bounds neighbour produces a newFilled
entry in the current pass. -/
lemma hole_has_target (d0 mData : ℕ → ℕ) (w h : ℕ) (s : FillState)
    (hInv : ChartInv d0 mData w h s) (q r : ℤ × ℤ) (hinb : inBounds w h q)
    (hhole : mData (pixIdx w q + 3) < 128)
    (hq0 : s.data (pixIdx w q + 3) = 0)
    (hadj : adj8 q r) (hrin : inBounds w h r)
    (hrv : 0 < s.data (pixIdx w r + 3)) :
    ∃ t ∈ passTargets s.data w h s.todo, t.1 = 4 * pOf w q := by
  have hplt : pOf w q < w * h := pOf_lt w h q hinb
  have hpe : pixIdx w q = 4 * pOf w q := pixIdx_eq w q
  have hhole' : mData (4 * pOf w q + 3) < 128 := by rw [← hpe]; exact hhole
  rcases hInv.holeStatus (pOf w q) hplt hhole' with hact | h255
  · have hmem : ((4 * pOf w q : ℕ) : ℤ) ∈ s.todo := ((activeL_mem _ _).mp hact).1
    have hcoord : coordOf w (pOf w q) = q := coordOf_pOf w h q hinb
    have hx : ((pOf w q % w : ℕ) : ℤ) = q.1 := congrArg Prod.fst hcoord
    have hy : ((pOf w q / w : ℕ) : ℤ) = q.2 := congrArg Prod.snd hcoord
    have hradj : r ∈ neighborList ((pOf w q % w : ℕ) : ℤ)
        ((pOf w q / w : ℕ) : ℤ) := by
      rw [hx, hy]
      exact hadj
    rcases avgColor_isSome s.data w h _ _ r hradj hrin hrv with ⟨c, hav⟩
    have htn : ((4 * pOf w q : ℕ) : ℤ).toNat = 4 * pOf w q := rfl
    have hav' : avgColor s.data w h
        ((((4 * pOf w q : ℕ) : ℤ).toNat / 4 % w : ℕ) : ℤ)
        ((((4 * pOf w q : ℕ) : ℤ).toNat / 4 / w : ℕ) : ℤ) = some c := by
      rw [show ((4 * pOf w q : ℕ) : ℤ).toNat / 4 = pOf w q from by rw [htn]; omega]
      exact hav
    exact ⟨(((4 * pOf w q : ℕ) : ℤ).toNat, c),
      passTargets_mem_of s.data w h s.todo _ c hmem (by omega) hav',
      by rw [htn]⟩
  · rw [hpe] at hq0
    rw [hq0] at h255
    cases h255

lemma chartInv_targets_aligned (d0 mData : ℕ → ℕ) (w h : ℕ) (s : FillState)
    (hInv : ChartInv d0 mData w h s) :
    ∀ t ∈ passTargets s.data w h s.todo, ∃ q, t.1 = 4 * q := by
  intro t ht
  rcases (passTargets_mem s.data w h s.todo t).mp ht with ⟨e, he, hne, hfst, _⟩
  rcases hInv.entries e he with h | ⟨p, _, rfl, _⟩
  · exact absurd h hne
  · exact ⟨p, by rw [hfst]; rfl⟩

lemma chartInv_targets_nodup (d0 mData : ℕ → ℕ) (w h : ℕ) (s : FillState)
    (hInv : ChartInv d0 mData w h s) :
    ((passTargets s.data w h s.todo).map Prod.fst).Nodup := by
  apply passTargets_fsts_nodup s.data w h s.todo hInv.nodup
  intro e he
  rcases hInv.entries e he with h | ⟨p, _, rfl, _⟩
  · exact Or.inl h
  · exact Or.inr (Int.ofNat_nonneg _)

lemma stuck_all_valid (d0 mData : ℕ → ℕ) (w h : ℕ) (s : FillState)
    (hInv : ChartInv d0 mData w h s)
    (hko : ∀ p, p < w * h → 128 ≤ mData (4 * p + 3) → 0 < d0 (4 * p + 3))
    (hnil : passTargets s.data w h s.todo = []) :
    ∀ (n : ℕ) (q : ℤ × ℤ), inBounds w h q → Rreach mData w h n q →
      0 < s.data (pixIdx w q + 3) := by
  intro n
  induction n with
  | zero =>
    intro q hinb hq
    have hpe : pixIdx w q = 4 * pOf w q := pixIdx_eq w q
    have hplt := pOf_lt w h q hinb
    have hk : 128 ≤ mData (4 * pOf w q + 3) := by rw [← hpe]; exact hq.2
    rw [hpe, hInv.keepData (pOf w q) hplt hk 3 (by omega)]
    exact hko _ hplt hk
  | succ n ih =>
    intro q hinb hq
    rcases hq with hq | ⟨hinb', hhole, r, hadj, hrr⟩
    · exact ih q hinb hq
    · by_cases hqv : 0 < s.data (pixIdx w q + 3)
      · exact hqv
      · exfalso
        have hq0 : s.data (pixIdx w q + 3) = 0 := by omega
        have hrin := Rreach_inBounds mData w h n r hrr
        have hrv := ih r hrin hrr
        rcases hole_has_target d0 mData w h s hInv q r hinb' hhole hq0 hadj
          hrin hrv with ⟨t, ht, _⟩
        rw [hnil] at ht
        exact absurd ht (List.not_mem_nil t)

lemma remzero_all_valid (d0 mData : ℕ → ℕ) (w h : ℕ) (s : FillState)
    (hInv : ChartInv d0 mData w h s)
    (hko : ∀ p, p < w * h → 128 ≤ mData (4 * p + 3) → 0 < d0 (4 * p + 3))
    (hrem : ¬ 0 < s.remaining) :
    ∀ q, inBounds w h q → 0 < s.data (pixIdx w q + 3) := by
  have hlen : (activeL s.todo).length = 0 := by
    have := hInv.remCount
    omega
  have hactnil : activeL s.todo = [] := List.length_eq_zero.mp hlen
  intro q hinb
  have hpe := pixIdx_eq w q
  have hplt := pOf_lt w h q hinb
  by_cases hk : 128 ≤ mData (4 * pOf w q + 3)
  · rw [hpe, hInv.keepData _ hplt hk 3 (by omega)]
    exact hko _ hplt hk
  · have hhole : mData (4 * pOf w q + 3) < 128 := by omega
    rcases hInv.holeStatus _ hplt hhole with hact | h255
    · rw [hactnil] at hact
      exact absurd hact (List.not_mem_nil _)
    · rw [hpe, h255]
      omega

lemma runLoop_fills (d0 mData : ℕ → ℕ) (w h : ℕ)
    (hko : ∀ p, p < w * h → 128 ≤ mData (4 * p + 3) → 0 < d0 (4 * p + 3)) :
    ∀ (fuel : ℕ) (s : FillState) (n : ℕ), ChartInv d0 mData w h s →
      (∀ q, inBounds w h q → Rreach mData w h n q →
        0 < s.data (pixIdx w q + 3)) →
      ∀ (m : ℕ) (q : ℤ × ℤ), inBounds w h q → Rreach mData w h m q →
        m ≤ n + fuel →
        0 < (runLoop w h false fuel s).data (pixIdx w q + 3) := by
  intro fuel
  induction fuel with
  | zero =>
    intro s n hInv hvalid m q hinb hrm hle
    exact hvalid q hinb (Rreach_mono mData w h n m (by omega) q hrm)
  | succ fuel ih =>
    intro s n hInv hvalid m q hinb hrm hle
    rw [runLoop_succ]
    by_cases hrem : 0 < s.remaining
    · rw [if_pos hrem]
      by_cases hbr : false = false ∧ (passTargets s.data w h s.todo).length = 0
      · rw [if_pos hbr]
        have hnil : passTargets s.data w h s.todo = [] :=
          List.length_eq_zero.mp hbr.2
        have hval := stuck_all_valid d0 mData w h s hInv hko hnil m q hinb hrm
        have hdata : (passBody w h false s).data = s.data := by
          show commitWrites s.data (passTargets s.data w h s.todo) = s.data
          rw [hnil, commitWrites_nil]
        show 0 < (passBody w h false s).data (pixIdx w q + 3)
        rw [hdata]
        exact hval
      · rw [if_neg hbr]
        have F1' := chartInv_targets_aligned d0 mData w h s hInv
        have F2 := chartInv_targets_nodup d0 mData w h s hInv
        have hInv' := chartInv_pass_irrel d0 mData w h (passBody w h false s)
          ((passBody w h false s).pass + 1)
          (chartInv_passBody d0 mData w h s hInv)
        have hvalid' : ∀ q', inBounds w h q' → Rreach mData w h (n + 1) q' →
            0 < (passBody w h false s).data (pixIdx w q' + 3) := by
          intro q' hinb' hr'
          have hpe := pixIdx_eq w q'
          rcases hr' with hr' | ⟨hinb'', hhole, r, hadj, hrr⟩
          · have hold := hvalid q' hinb' hr'
            show 0 < commitWrites s.data (passTargets s.data w h s.todo)
              (pixIdx w q' + 3)
            rw [hpe]
            exact commitWrites_alpha_pos _ _ _ F1' (by rw [← hpe]; exact hold)
          · by_cases hqv : 0 < s.data (pixIdx w q' + 3)
            · show 0 < commitWrites s.data (passTargets s.data w h s.todo)
                (pixIdx w q' + 3)
              rw [hpe]
              exact commitWrites_alpha_pos _ _ _ F1' (by rw [← hpe]; exact hqv)
            · have hq0 : s.data (pixIdx w q' + 3) = 0 := by omega
              have hrin := Rreach_inBounds mData w h n r hrr
              have hrv := hvalid r hrin hrr
              rcases hole_has_target d0 mData w h s hInv q' r hinb'' hhole hq0
                hadj hrin hrv with ⟨t, ht, htp⟩
              show 0 < commitWrites s.data (passTargets s.data w h s.todo)
                (pixIdx w q' + 3)
              rw [hpe, ← htp,
                commitWrites_at _ s.data t ht F1' F2 3 (by omega)]
              unfold chanVal
              norm_num
        exact ih _ (n + 1) hInv' hvalid' m q hinb hrm (by omega)
    · rw [if_neg hrem]
      exact remzero_all_valid d0 mData w h s hInv hko hrem q hinb

/-- Space-fill completeness: with maxPasses = max(width, height), an opaque
keep pixel anywhere forces every hole pixel's alpha to 255. -/
lemma chart_fill_complete (data mData : ℕ → ℕ) (w h : ℕ)
    (hko : ∀ p, p < w * h → 128 ≤ mData (4 * p + 3) → 0 < data (4 * p + 3))
    (p0 : ℕ) (hp0 : p0 < w * h) (hk0 : 128 ≤ mData (4 * p0 + 3)) :
    ∀ p, p < w * h → mData (4 * p + 3) < 128 →
      (sharpDiffusion data mData w h (max w h) false).data (4 * p + 3) = 255 := by
  intro p hp hm
  rw [sharpDiffusion_eq]
  have hInv0 := chartInv_initState data mData w h
  have hvalid0 : ∀ q, inBounds w h q → Rreach mData w h 0 q →
      0 < (initState data mData w h false).data (pixIdx w q + 3) := by
    intro q hinb hq
    have hpe := pixIdx_eq w q
    have hplt := pOf_lt w h q hinb
    have hk : 128 ≤ mData (4 * pOf w q + 3) := by rw [← hpe]; exact hq.2
    rw [hpe, hInv0.keepData _ hplt hk 3 (by omega)]
    exact hko _ hplt hk
  have hq := coordOf_inBounds w h p hp
  have hkk := coordOf_inBounds w h p0 hp0
  have hkeep0 : 128 ≤ mData (pixIdx w (coordOf w p0) + 3) := by
    rw [pixIdx_coordOf w h p0 hp0]
    exact hk0
  have hreach : Rreach mData w h (cheb (coordOf w p) (coordOf w p0))
      (coordOf w p) :=
    reachOfCheb mData w h (coordOf w p0) hkk hkeep0 _ _ hq (le_refl _)
  have hlt := cheb_lt_max w h (coordOf w p) (coordOf w p0) hq hkk
  have hfill := runLoop_fills data mData w h hko (max w h)
    (initState data mData w h false) 0 hInv0 hvalid0
    (cheb (coordOf w p) (coordOf w p0)) (coordOf w p) hq hreach (by omega)
  have hInvF := chartInv_runLoop data mData w h (max w h)
    (initState data mData w h false) hInv0
  rw [pixIdx_coordOf w h p hp] at hfill
  rcases hInvF.holeStatus p hp hm with hact | h255
  · exfalso
    have halpha := hInvF.activeAlpha _ hact
    have htn : ((4 * p : ℕ) : ℤ).toNat = 4 * p := rfl
    rw [htn] at halpha
    omega
  · exact h255

/-
  The connectivity hypothesis of the full-opacity claim: a chain of
  8-adjacent hole pixels from q to a pixel bordering a keep pixel.
-/

/-- One chain link: both endpoints are in-bounds hole pixels and 8-adjacent. -/
def holeAdjRel (mData : ℕ → ℕ) (w h : ℕ) (a b : ℤ × ℤ) : Prop :=
  inBounds w h a ∧ inBounds w h b ∧ mData (pixIdx w a + 3) < 128 ∧
    mData (pixIdx w b + 3) < 128 ∧ adj8 a b

/-- q is connected through a chain of 8-neighbour hole pixels to at least one
keep pixel. -/
def HoleConn (mData : ℕ → ℕ) (w h : ℕ) (q : ℤ × ℤ) : Prop :=
  ∃ c k, Relation.ReflTransGen (holeAdjRel mData w h) q c ∧
    inBounds w h k ∧ 128 ≤ mData (pixIdx w k + 3) ∧ adj8 c k

/-
  Claim theorems.
-/

/-- C1: for every input image and same-size mask, in both modes (chart mode:
sharpDiffusion in either fill policy; photo mode: the final noise composite),
every keep pixel (mask alpha at least 128) keeps its input R, G, B and A
bytes exactly: the fill never writes outside the hole. -/
theorem c1_nondestructive_outside_hole (data mData smooth : ℕ → ℕ)
    (w h mp : ℕ) (pc : Bool) (rand : ℕ → ℚ) (p : ℕ) (hp : p < w * h)
    (hk : 128 ≤ mData (4 * p + 3)) :
    (∀ c, c < 4 →
      (sharpDiffusion data mData w h mp pc).data (4 * p + c) = data (4 * p + c)) ∧
    (∀ c, c < 4 →
      texturize data smooth mData w h rand (4 * p + c) = data (4 * p + c)) :=
  ⟨fun c hc => sharpDiffusion_keep data mData w h mp pc p hp hk c hc,
   fun c hc => texturize_keep data smooth mData w h rand p hp hk c hc⟩

/-- Witness for C1 at a concrete 1-by-1 keep pixel. -/
theorem c1_witness :
    (sharpDiffusion (fun _ => 200) (fun _ => 255) 1 1 1 false).data 3 = 200 ∧
    texturize (fun _ => 200) (fun _ => 90) (fun _ => 255) 1 1 (fun _ => 0) 3 = 200 := by
  have hmain := c1_nondestructive_outside_hole (fun _ => 200) (fun _ => 255)
    (fun _ => 90) 1 1 1 false (fun _ => 0) 0 (by decide) (by decide)
  exact ⟨hmain.1 3 (by decide), hmain.2 3 (by decide)⟩

/-- Mask of the C2 counterexample: pixel 0 is keep, every other pixel is a
hole. -/
def c2cMask : ℕ → ℕ := fun j => if j / 4 = 0 then 255 else 0

/-- Image of the C2 counterexample: every byte 0 — in particular the keep
pixel's alpha is 0, so the validity test data[idx+3] > 0 never accepts it. -/
def c2cImg : ℕ → ℕ := fun _ => 0

/-- C2 counterexample: on a 2-by-1 image whose only hole pixel is 8-adjacent
to the keep pixel (so the claim's connectivity hypothesis holds), chart mode
with maxPasses = max(width, height) leaves the hole pixel's alpha at 0, not
255, because the keep pixel's own alpha is 0 in the image and is therefore
never a valid neighbour. -/
theorem c2_counterexample :
    (∀ q, inBounds 2 1 q → c2cMask (pixIdx 2 q + 3) < 128 →
      HoleConn c2cMask 2 1 q) ∧
    (sharpDiffusion c2cImg c2cMask 2 1 (max 2 1) false).data (4 * 1 + 3) = 0 := by
  constructor
  · intro q hin hhole
    rcases hin with ⟨h1, h2, h3, h4⟩
    have hy : q.2 = 0 := by omega
    have hx : q.1 = 0 ∨ q.1 = 1 := by omega
    rcases hx with hx | hx
    · exfalso
      have hq : q = ((0 : ℤ), (0 : ℤ)) := Prod.ext hx hy
      rw [hq] at hhole
      revert hhole
      decide
    · have hq : q = ((1 : ℤ), (0 : ℤ)) := Prod.ext hx hy
      rw [hq]
      exact ⟨(1, 0), (0, 0), Relation.ReflTransGen.refl, by decide, by decide,
        by decide⟩
  · decide

/-- C2 (amended): in chart mode with maxPasses = max(width, height), if every
hole pixel is connected through a chain of 8-neighbour hole pixels to at
least one keep pixel, and additionally every keep pixel has positive alpha in
the input image (the counterexample shows the claim fails without this),
then every hole pixel's output alpha is 255. -/
theorem c2_full_opacity_chart (data mData : ℕ → ℕ) (w h : ℕ)
    (hko : ∀ p, p < w * h → 128 ≤ mData (4 * p + 3) → 0 < data (4 * p + 3))
    (hconn : ∀ q, inBounds w h q → mData (pixIdx w q + 3) < 128 →
      HoleConn mData w h q) :
    ∀ p, p < w * h → mData (4 * p + 3) < 128 →
      (sharpDiffusion data mData w h (max w h) false).data (4 * p + 3) = 255 := by
  intro p hp hm
  have hq := coordOf_inBounds w h p hp
  have hmq : mData (pixIdx w (coordOf w p) + 3) < 128 := by
    rw [pixIdx_coordOf w h p hp]
    exact hm
  rcases hconn _ hq hmq with ⟨c, k, _, hkin, hkkeep, _⟩
  exact chart_fill_complete data mData w h hko (pOf w k) (pOf_lt w h k hkin)
    (by rw [← pixIdx_eq]; exact hkkeep) p hp hm

/-- Mask of the C2 witness: on a 1-by-2 image, pixel 0 is keep, pixel 1 is a
hole. -/
def c2wMask : ℕ → ℕ := fun j => if j / 4 = 0 then 255 else 0

/-- Witness for C2 on a concrete opaque 1-by-2 image. -/
theorem c2_witness :
    (sharpDiffusion (fun _ => 255) c2wMask 1 2 (max 1 2) false).data (4 * 1 + 3) = 255 := by
  apply c2_full_opacity_chart (fun _ => 255) c2wMask 1 2 (by decide)
    ?_ 1 (by decide) (by decide)
  intro q hin hhole
  rcases hin with ⟨h1, h2, h3, h4⟩
  have hx : q.1 = 0 := by omega
  have hy : q.2 = 0 ∨ q.2 = 1 := by omega
  rcases hy with hy | hy
  · exfalso
    have hq : q = ((0 : ℤ), (0 : ℤ)) := Prod.ext hx hy
    rw [hq] at hhole
    revert hhole
    decide
  · have hq : q = ((0 : ℤ), (1 : ℤ)) := Prod.ext hx hy
    rw [hq]
    exact ⟨(0, 1), (0, 0), Relation.ReflTransGen.refl, by decide, by decide,
      by decide⟩

/-- C3 counterexample: on a 1-by-1 image whose single pixel is a hole, chart
mode still produces a buffer (the model has no error path for this input),
but its alpha is 0, not 255 — the output is not fully opaque. -/
theorem c3_counterexample :
    (performInpaintingChart (fun _ => 200) (fun _ => 0) 1 1).data (4 * 0 + 3) = 0 ∧
    (0 : ℕ) ≠ 255 := by
  constructor
  · decide
  · decide

/-- C3 (amended): the chart branch mutates a buffer of exactly the input's
dimensions (definitional in the model: the canvas is created at the image's
width and height).  Provided every keep pixel of the input is fully opaque
(alpha 255), the output is fully opaque everywhere in chart mode whenever at
least one keep pixel exists, and in photo mode unconditionally; in the
degenerate all-hole chart case a buffer is still produced but hole alphas
stay 0 (see the counterexample), contradicting the claim as stated. -/
theorem c3_fully_opaque_output (data smooth mData : ℕ → ℕ) (w h : ℕ)
    (rand : ℕ → ℚ)
    (hk255 : ∀ p, p < w * h → 128 ≤ mData (4 * p + 3) → data (4 * p + 3) = 255) :
    ((∃ p0, p0 < w * h ∧ 128 ≤ mData (4 * p0 + 3)) →
      ∀ p, p < w * h →
        (performInpaintingChart data mData w h).data (4 * p + 3) = 255) ∧
    (∀ p, p < w * h → texturize data smooth mData w h rand (4 * p + 3) = 255) := by
  constructor
  · rintro ⟨p0, hp0, hkk⟩ p hp
    by_cases hm : mData (4 * p + 3) < 128
    · exact chart_fill_complete data mData w h
        (fun p' hp' hk' => by rw [hk255 p' hp' hk']; omega) p0 hp0 hkk p hp hm
    · show (sharpDiffusion data mData w h (max w h) false).data (4 * p + 3) = 255
      rw [sharpDiffusion_keep data mData w h (max w h) false p hp (by omega) 3
        (by omega)]
      exact hk255 p hp (by omega)
  · intro p hp
    by_cases hm : mData (4 * p + 3) < 128
    · exact texturize_hole_alpha data smooth mData w h rand p hp hm
    · rw [texturize_keep data smooth mData w h rand p hp (by omega) 3 (by omega)]
      exact hk255 p hp (by omega)

/-- Mask of the C3 witness: on a 1-by-2 image, pixel 0 is keep, pixel 1 is a
hole. -/
def c3wMask : ℕ → ℕ := fun j => if j / 4 = 0 then 255 else 0

/-- Witness for C3 on a concrete opaque 1-by-2 image, both modes. -/
theorem c3_witness :
    (performInpaintingChart (fun _ => 255) c3wMask 1 2).data (4 * 1 + 3) = 255 ∧
    texturize (fun _ => 255) (fun _ => 7) c3wMask 1 2 (fun _ => 0) (4 * 1 + 3) = 255 := by
  have hmain := c3_fully_opaque_output (fun _ => 255) (fun _ => 7) c3wMask 1 2
    (fun _ => 0) (fun p hp hk => rfl)
  exact ⟨hmain.1 ⟨0, by decide, by decide⟩ 1 (by decide), hmain.2 1 (by decide)⟩

/-- Image of the C4 demonstration: pixel 0 is red (255,0,0,255), pixel 1 is
blue (0,0,255,255). -/
def c4Img : ℕ → ℕ := fun j =>
  if j = 0 then 255 else if j = 3 then 255 else
  if j = 6 then 255 else if j = 7 then 255 else 0

/-- C4: the code has no dimension comparison at all.  Running the chart
branch on a 2-by-1 image with a 1-by-1 opaque mask succeeds: the mask canvas
pads the uncovered pixel with alpha 0, so pixel (1,0) is treated as a hole
and is rewritten from blue to red — the image is modified and a buffer is
returned instead of a DimensionMismatch rejection, and the mask is
effectively extended (the claim's behaviour never happens). -/
theorem c4_no_dimension_check :
    (performInpaintingChartFull c4Img (fun _ => 255) 1 1 2 1).data 4 = 255 ∧
    (performInpaintingChartFull c4Img (fun _ => 255) 1 1 2 1).data 5 = 0 ∧
    (performInpaintingChartFull c4Img (fun _ => 255) 1 1 2 1).data 6 = 0 ∧
    (performInpaintingChartFull c4Img (fun _ => 255) 1 1 2 1).data 7 = 255 ∧
    c4Img 4 = 0 ∧ c4Img 6 = 255 := by
  refine ⟨?_, ?_, ?_, ?_, ?_, ?_⟩ <;> decide

/-- C5 counterexample: a 1-by-1 all-hole image.  The two inputs agree on
every keep pixel (there is none), yet the outputs differ at the unfilled hole
pixel's red byte, which keeps its input value (only alpha is cleared by the
space-fill init): the outputs are not identical. -/
theorem c5_counterexample :
    (∀ p, p < 1 * 1 → 128 ≤ (fun _ => (0 : ℕ)) (4 * p + 3) →
      ∀ c, c < 4 → (fun _ => (255 : ℕ)) (4 * p + c) = (fun _ => (9 : ℕ)) (4 * p + c)) ∧
    (performInpaintingChart (fun _ => 255) (fun _ => 0) 1 1).data 0 ≠
      (performInpaintingChart (fun _ => 9) (fun _ => 0) 1 1).data 0 := by
  constructor
  · decide
  · decide

/-- C5 (amended): under the space-fill policy, two inputs that agree on every
keep pixel produce outputs that agree on every pixel's alpha byte and on all
four bytes of every pixel whose output alpha is positive; in particular the
outputs are byte-identical whenever every hole pixel gets filled.  Only the
R, G, B bytes of never-filled hole pixels (output alpha 0) may differ,
retaining their respective input values — the counterexample shows the claim
as stated fails there. -/
theorem c5_hole_content_independence (d1 d2 mData : ℕ → ℕ) (w h mp : ℕ)
    (hagree : ∀ p, p < w * h → 128 ≤ mData (4 * p + 3) →
      ∀ c, c < 4 → d1 (4 * p + c) = d2 (4 * p + c)) :
    ∀ p, p < w * h →
      (sharpDiffusion d1 mData w h mp false).data (4 * p + 3) =
        (sharpDiffusion d2 mData w h mp false).data (4 * p + 3) ∧
      (0 < (sharpDiffusion d1 mData w h mp false).data (4 * p + 3) →
        ∀ c, c < 4 →
          (sharpDiffusion d1 mData w h mp false).data (4 * p + c) =
            (sharpDiffusion d2 mData w h mp false).data (4 * p + c)) := by
  have htw := twin_runLoop d1 mData w h mp
    (initState d1 mData w h false) (initState d2 mData w h false)
    (chartInv_initState d1 mData w h)
    (twin_initState d1 d2 mData w h hagree)
  intro p hp
  exact htw.dataRel p hp

/-- Witness for C5 on a concrete 1-by-2 image with one keep and one hole
pixel. -/
theorem c5_witness :
    (sharpDiffusion (fun j => if j < 4 then 50 else 200) c2wMask 1 2 2 false).data (4 * 1 + 3) =
      (sharpDiffusion (fun j => if j < 4 then 50 else 17) c2wMask 1 2 2 false).data (4 * 1 + 3) := by
  exact (c5_hole_content_independence (fun j => if j < 4 then 50 else 200)
    (fun j => if j < 4 then 50 else 17) c2wMask 1 2 2 (by decide) 1 (by decide)).1

/-- C6: if the entire buffer is a hole (every pixel's mask alpha < 128), the
space-fill terminates for every pass budget: the loop exits during its first
iteration (the pass counter never advances past 0), every hole pixel's
output alpha is 0, and the R, G, B bytes are untouched. -/
theorem c6_degenerate_all_hole (data mData : ℕ → ℕ) (w h mp : ℕ)
    (hall : ∀ p, p < w * h → mData (4 * p + 3) < 128) :
    (∀ p, p < w * h →
      (sharpDiffusion data mData w h mp false).data (4 * p + 3) = 0 ∧
      ∀ c, c < 3 →
        (sharpDiffusion data mData w h mp false).data (4 * p + c) =
          data (4 * p + c)) ∧
    (sharpDiffusion data mData w h mp false).pass = 0 := by
  rcases allHole_run data mData w h mp hall with ⟨hdata, hpass⟩
  refine ⟨?_, hpass⟩
  intro p hp
  constructor
  · rw [hdata]
    exact allHole_init_alpha data mData w h hall p hp
  · intro c hc
    rw [hdata]
    show (initGo data mData false (w * h)).1 (4 * p + c) = data (4 * p + c)
    rw [initGo_data_false, if_neg (by rintro ⟨h3, _, _⟩; omega)]

/-- Witness for C6 on a concrete all-hole 1-by-1 image with a large pass
budget. -/
theorem c6_witness :
    (sharpDiffusion (fun _ => 77) (fun _ => 0) 1 1 9 false).data 3 = 0 ∧
    (sharpDiffusion (fun _ => 77) (fun _ => 0) 1 1 9 false).data 0 = 77 ∧
    (sharpDiffusion (fun _ => 77) (fun _ => 0) 1 1 9 false).pass = 0 := by
  have hmain := c6_degenerate_all_hole (fun _ => 77) (fun _ => 0) 1 1 9 (by decide)
  exact ⟨(hmain.1 0 (by decide)).1, (hmain.1 0 (by decide)).2 0 (by decide),
    hmain.2⟩

/-- C7 counterexample: with a hole-free mask on a 1-by-1 image and
maxPasses = 1, the seam-heal loop body never runs (the worklist is empty and
`remaining` is 0), so the loop runs 0 iterations, not exactly
maxPasses = 1 as the claim states for every input. -/
theorem c7_counterexample :
    (sharpDiffusion (fun _ => 255) (fun _ => 255) 1 1 1 true).pass = 0 ∧
    (0 : ℕ) ≠ 1 := by
  constructor
  · decide
  · decide

/-- C7 (amended): under the seam-heal policy the worklist is never reduced —
after the run it still equals the full hole list built at init — and the
loop runs exactly maxPasses iterations provided at least one hole pixel
exists; with a hole-free mask it runs zero iterations (the
counterexample). -/
theorem c7_seamheal_worklist (data mData : ℕ → ℕ) (w h mp : ℕ) :
    (sharpDiffusion data mData w h mp true).todo = holeTodoList mData w h ∧
    ((∃ p, p < w * h ∧ mData (4 * p + 3) < 128) →
      (sharpDiffusion data mData w h mp true).pass = mp) := by
  rw [sharpDiffusion_eq]
  rcases runLoop_true_run w h mp (initState data mData w h true) with ⟨h1, h2, h3⟩
  constructor
  · rw [h1]
    exact initFill_todo data mData w h true
  · rintro ⟨p, hp, hm⟩
    rw [h3]
    have hmem : ((4 * p : ℕ) : ℤ) ∈ holeTodoList mData w h :=
      (holeTodoList_mem mData w h _).mpr ⟨p, hp, rfl, hm⟩
    have hlen : 0 < (holeTodoList mData w h).length :=
      List.length_pos.mpr (List.ne_nil_of_mem hmem)
    have hrem : (initState data mData w h true).remaining =
        ((holeTodoList mData w h).length : ℤ) := by
      show ((initFill data mData w h true).2.length : ℤ) = _
      rw [initFill_todo]
    rw [if_pos (by rw [hrem]; exact_mod_cast hlen)]
    show (initState data mData w h true).pass + mp = mp
    show 0 + mp = mp
    omega

/-- Witness for C7 on a concrete all-hole 1-by-1 image and maxPasses = 3. -/
theorem c7_witness :
    (sharpDiffusion (fun _ => 44) (fun _ => 0) 1 1 3 true).todo =
      holeTodoList (fun _ => 0) 1 1 ∧
    (sharpDiffusion (fun _ => 44) (fun _ => 0) 1 1 3 true).pass = 3 := by
  have hmain := c7_seamheal_worklist (fun _ => 44) (fun _ => 0) 1 1 3
  exact ⟨hmain.1, hmain.2 ⟨0, by decide, by decide⟩⟩

/-- C8: in photo mode, for every random stream taking values in [0, 1) (the
range of Math.random) and every smooth (pyramid) buffer of bytes, every hole
pixel's output R, G and B differ from the pre-texture value by at most 6 in
magnitude (even after clamping and the half-to-even rounding of the byte
store), its output alpha is 255, and every non-hole pixel's four bytes equal
the input exactly. -/
theorem c8_bounded_noise (orig smooth mData : ℕ → ℕ) (w h : ℕ) (rand : ℕ → ℚ)
    (hrand : ∀ n, 0 ≤ rand n ∧ rand n < 1) (hsm : ∀ j, smooth j ≤ 255) :
    ∀ p, p < w * h →
      (mData (4 * p + 3) < 128 →
        texturize orig smooth mData w h rand (4 * p + 3) = 255 ∧
        ∀ c, c < 3 →
          |(texturize orig smooth mData w h rand (4 * p + c) : ℤ) -
            (smooth (4 * p + c) : ℤ)| ≤ 6) ∧
      (128 ≤ mData (4 * p + 3) →
        ∀ c, c < 4 →
          texturize orig smooth mData w h rand (4 * p + c) = orig (4 * p + c)) := by
  intro p hp
  constructor
  · intro hm
    refine ⟨texturize_hole_alpha orig smooth mData w h rand p hp hm, ?_⟩
    intro c hc
    rw [texturize_hole_rgb orig smooth mData w h rand p hp hm c hc]
    unfold texVal
    have hr := hrand (holeCountBefore mData p)
    apply jsClamp_noise_bound _ (hsm _)
    · unfold noiseAt
      nlinarith [hr.1, hr.2]
    · unfold noiseAt
      nlinarith [hr.1, hr.2]
  · intro hk c hc
    exact texturize_keep orig smooth mData w h rand p hp hk c hc

/-- Witness for C8 on a concrete 1-by-1 hole with random value 1/4
(noise exactly -3). -/
theorem c8_witness :
    texturize (fun _ => 5) (fun _ => 100) (fun _ => 0) 1 1 (fun _ => 1 / 4) 3 = 255 ∧
    |(texturize (fun _ => 5) (fun _ => 100) (fun _ => 0) 1 1 (fun _ => 1 / 4) 0 : ℤ) -
      ((fun _ => (100 : ℕ)) 0 : ℤ)| ≤ 6 := by
  have hmain := (c8_bounded_noise (fun _ => 5) (fun _ => 100) (fun _ => 0) 1 1
    (fun _ => 1 / 4) (fun n => by norm_num) (fun j => by norm_num) 0
    (by decide)).1 (by decide)
  exact ⟨hmain.1, hmain.2 0 (by decide)⟩

/-- C9: under the space-fill policy every pixel is committed at most once
across the whole run — the ghost per-pixel commit counter of the final state
never exceeds 1 (once filled, a pixel is blanked from the worklist and its
bytes are never written again). -/
theorem c9_space_fill_write_once (data mData : ℕ → ℕ) (w h mp : ℕ) :
    ∀ i, (sharpDiffusion data mData w h mp false).writes i ≤ 1 := by
  intro i
  rw [sharpDiffusion_eq]
  exact (chartInv_runLoop data mData w h mp (initState data mData w h false)
    (chartInv_initState data mData w h)).wOnce i

/-- Smooth buffer of the C10 counterexample: R and B are 100, G is 101. -/
def c10Smooth : ℕ → ℕ := fun j => if j = 1 then 101 else 100

/-- Random stream of the C10 counterexample: 13/24, so the noise is exactly
(13/24 - 1/2) * 12 = 1/2 and the byte store's half-to-even rounding ties. -/
def c10Rand : ℕ → ℚ := fun _ => 13 / 24

lemma c10_noise : noiseAt (fun _ => 0) c10Rand 0 = 1 / 2 := by
  unfold noiseAt c10Rand
  norm_num

lemma c10_tex_r :
    texturize (fun _ => 0) c10Smooth (fun _ => 0) 1 1 c10Rand 0 = 100 := by
  have h := texturize_hole_rgb (fun _ => 0) c10Smooth (fun _ => 0) 1 1 c10Rand
    0 (by decide) (by decide) 0 (by decide)
  norm_num at h
  rw [h, c10_noise]
  unfold texVal
  have hs : ((c10Smooth 0 : ℕ) : ℚ) = 100 := by norm_num [c10Smooth]
  rw [hs, show max 0 (min 255 ((100 : ℚ) + 1 / 2)) = 201 / 2 by norm_num]
  have hf : ⌊(201 / 2 : ℚ)⌋ = 100 := by
    rw [Int.floor_eq_iff]
    norm_num
  have hfr : Int.fract (201 / 2 : ℚ) = 1 / 2 := by
    unfold Int.fract
    rw [hf]
    norm_num
  have hb : (jsUint8Clamp (201 / 2) : ℤ) = 100 := by
    rw [jsUint8Clamp_of_bounds (201 / 2) (by norm_num) (by norm_num), hf, hfr]
    norm_num
  exact_mod_cast hb

lemma c10_tex_g :
    texturize (fun _ => 0) c10Smooth (fun _ => 0) 1 1 c10Rand 1 = 102 := by
  have h := texturize_hole_rgb (fun _ => 0) c10Smooth (fun _ => 0) 1 1 c10Rand
    0 (by decide) (by decide) 1 (by decide)
  norm_num at h
  rw [h, c10_noise]
  unfold texVal
  have hs : ((c10Smooth 1 : ℕ) : ℚ) = 101 := by norm_num [c10Smooth]
  rw [hs, show max 0 (min 255 ((101 : ℚ) + 1 / 2)) = 203 / 2 by norm_num]
  have hf : ⌊(203 / 2 : ℚ)⌋ = 101 := by
    rw [Int.floor_eq_iff]
    norm_num
  have hfr : Int.fract (203 / 2 : ℚ) = 1 / 2 := by
    unfold Int.fract
    rw [hf]
    norm_num
  have hb : (jsUint8Clamp (203 / 2) : ℤ) = 102 := by
    rw [jsUint8Clamp_of_bounds (203 / 2) (by norm_num) (by norm_num), hf, hfr]
    norm_num
  exact_mod_cast hb

/-- C10 counterexample: with noise exactly 1/2 no channel is affected by the
[0, 255] clamp, yet the R offset is 0 (100.5 rounds to even 100) while the G
offset is 1 (101.5 rounds to even 102): the offsets are not equal across
channels, because Uint8ClampedArray rounds ties to even. -/
theorem c10_counterexample :
    (∀ c, c < 3 → 0 ≤ (c10Smooth c : ℚ) + noiseAt (fun _ => 0) c10Rand 0 ∧
      (c10Smooth c : ℚ) + noiseAt (fun _ => 0) c10Rand 0 ≤ 255) ∧
    (texturize (fun _ => 0) c10Smooth (fun _ => 0) 1 1 c10Rand 0 : ℤ) -
        (c10Smooth 0 : ℤ) ≠
      (texturize (fun _ => 0) c10Smooth (fun _ => 0) 1 1 c10Rand 1 : ℤ) -
        (c10Smooth 1 : ℤ) := by
  constructor
  · intro c hc
    rw [c10_noise]
    interval_cases c <;> norm_num [c10Smooth]
  · rw [c10_tex_r, c10_tex_g]
    norm_num [c10Smooth]

/-- C10 (amended): the texturizer draws a single noise sample per hole pixel
and adds the same rational value to R, G and B; for every hole pixel whose
three channels are all unaffected by the [0, 255] clamp, the
output-minus-pre-texture offsets agree across R, G and B provided the noise's
fractional part is not exactly 1/2 — at an exact tie the half-to-even byte
store can shift channels of different parity by different amounts (see the
counterexample). -/
theorem c10_gray_noise_offset (orig smooth mData : ℕ → ℕ) (w h : ℕ)
    (rand : ℕ → ℚ) (p : ℕ) (hp : p < w * h) (hm : mData (4 * p + 3) < 128)
    (hin : ∀ c, c < 3 →
      0 ≤ (smooth (4 * p + c) : ℚ) + noiseAt mData rand p ∧
      (smooth (4 * p + c) : ℚ) + noiseAt mData rand p ≤ 255)
    (htie : Int.fract (noiseAt mData rand p) ≠ 1 / 2) :
    ∀ c1 c2, c1 < 3 → c2 < 3 →
      (texturize orig smooth mData w h rand (4 * p + c1) : ℤ) -
        (smooth (4 * p + c1) : ℤ) =
      (texturize orig smooth mData w h rand (4 * p + c2) : ℤ) -
        (smooth (4 * p + c2) : ℤ) := by
  intro c1 c2 hc1 hc2
  rw [texturize_hole_rgb orig smooth mData w h rand p hp hm c1 hc1,
    texturize_hole_rgb orig smooth mData w h rand p hp hm c2 hc2]
  unfold texVal
  rw [jsClamp_offset _ _ (hin c1 hc1).1 (hin c1 hc1).2 htie,
    jsClamp_offset _ _ (hin c2 hc2).1 (hin c2 hc2).2 htie]

/-- Witness for C10 on a concrete 1-by-1 hole with random value 1/4 (noise
exactly -3, fractional part 0). -/
theorem c10_witness :
    (texturize (fun _ => 0) (fun j => if j = 1 then 101 else 100) (fun _ => 0)
        1 1 (fun _ => 1 / 4) (4 * 0 + 0) : ℤ) -
      ((fun j => if j = 1 then (101 : ℕ) else 100) (4 * 0 + 0) : ℤ) =
    (texturize (fun _ => 0) (fun j => if j = 1 then 101 else 100) (fun _ => 0)
        1 1 (fun _ => 1 / 4) (4 * 0 + 1) : ℤ) -
      ((fun j => if j = 1 then (101 : ℕ) else 100) (4 * 0 + 1) : ℤ) := by
  have hnoise : noiseAt (fun _ => 0) (fun _ => (1 : ℚ) / 4) 0 = -3 := by
    unfold noiseAt
    norm_num
  apply c10_gray_noise_offset (fun _ => 0) (fun j => if j = 1 then 101 else 100)
    (fun _ => 0) 1 1 (fun _ => 1 / 4) 0 (by decide) (by decide) ?_ ?_ 0 1
    (by decide) (by decide)
  · intro c hc
    rw [hnoise]
    interval_cases c <;> norm_num
  · rw [hnoise, show ((-3 : ℚ)) = ((-3 : ℤ) : ℚ) by norm_num, Int.fract_intCast]
    norm_num
